import Mathlib

/-!
# Verification of the genReport reference extractor and markup protector

Shallow embedding of `src/utils/ref_regex.py` and `src/utils/__init__.py`.
Python strings are modelled as `List Char`, Python sets as `Finset (List Char)`.
The fixed regular expressions of the source are modelled either by a small
backtracking matcher faithful to Python `re` semantics (for the URL pattern,
which is only ever evaluated) or by specialised scanners whose equivalence with
the lazy patterns of the source is argued in the accompanying comments.
-/

set_option maxRecDepth 40000

/-- Model of Python `s.startswith(p)` on `List Char`: `leadsList p s` is true
iff `p` is an initial segment of `s`. -/
def leadsList : List Char → List Char → Bool
  | [], _ => true
  | _ :: _, [] => false
  | a :: p, b :: s => a = b && leadsList p s

/-- Model of Python `s.find(pat)`: index of the first occurrence of `pat` in
`s`, or `none` (Python returns `-1`). -/
def findSub : List Char → List Char → Option Nat
  | s, pat =>
    if leadsList pat s then some 0
    else
      match s with
      | [] => none
      | _ :: t => (findSub t pat).map (· + 1)

/-- Model of Python `pat in s` (substring containment). -/
def hasSub (s pat : List Char) : Bool := (findSub s pat).isSome

/-- Number of positions of `s` at which `pat` starts.  For the patterns used
here (which cannot overlap themselves) this coincides with Python
`s.count(pat)`. -/
def countSub : List Char → List Char → Nat
  | [], _ => 0
  | s@(_ :: t), pat => (if leadsList pat s then 1 else 0) + countSub t pat

/-- Fuelled body of `replaceAll`; structural recursion on the fuel keeps the
definition reducible by the kernel.  A fuel of at least the length of the
string is always sufficient because every step consumes at least one
character. -/
def replaceAllGo : Nat → List Char → List Char → List Char → List Char
  | 0, s, _, _ => s
  | _ + 1, [], _, _ => []
  | f + 1, c :: t, pat, rep =>
    if pat ≠ [] ∧ leadsList pat (c :: t) = true then
      rep ++ replaceAllGo f ((c :: t).drop pat.length) pat rep
    else
      c :: replaceAllGo f t pat rep

/-- Model of Python `s.replace(pat, rep)` (all non-overlapping occurrences,
scanning left to right).  `pat` is nonempty at every call site, matching the
source. -/
def replaceAll (s pat rep : List Char) : List Char := replaceAllGo s.length s pat rep

/-- Model of Python `s.replace(pat, rep, 1)` (first occurrence only). -/
def replaceFirst (s pat rep : List Char) : List Char :=
  match findSub s pat with
  | none => s
  | some k => s.take k ++ rep ++ s.drop (k + pat.length)

/-- Longest digit prefix, the model of a greedy `[0-9]+` / `\d+` capture. -/
def digitRun (s : List Char) : List Char := s.takeWhile Char.isDigit

/-- Decimal digit character for `n < 10`. -/
def digitChar (n : Nat) : Char := Char.ofNat (48 + n % 10)

/-- Fuelled decimal printer; a fuel of `n + 1` always suffices since the
argument at least halves every step. -/
def natToCharsGo : Nat → Nat → List Char
  | 0, _ => []
  | f + 1, n =>
    if n < 10 then [digitChar n]
    else natToCharsGo f (n / 10) ++ [digitChar (n % 10)]

/-- Model of Python `"{}".format(n)` for a natural number. -/
def natToChars (n : Nat) : List Char := natToCharsGo (n + 1) n

-- Basic facts about the primitives.

theorem leadsList_nil (p : List Char) : leadsList p [] = true ↔ p = [] := by
  cases p <;> simp [leadsList]

theorem leadsList_iff_append (p s : List Char) :
    leadsList p s = true ↔ ∃ t, s = p ++ t := by
  induction p generalizing s with
  | nil => simp [leadsList]
  | cons a p ih =>
    cases s with
    | nil => simp [leadsList]
    | cons b t =>
      simp only [leadsList, Bool.and_eq_true, decide_eq_true_eq, ih,
        List.cons_append, List.cons.injEq]
      constructor
      · rintro ⟨rfl, u, rfl⟩; exact ⟨u, rfl, rfl⟩
      · rintro ⟨u, rfl, rfl⟩; exact ⟨rfl, u, rfl⟩

theorem leadsList_refl (p : List Char) : leadsList p p = true := by
  rw [leadsList_iff_append]; exact ⟨[], by simp⟩

theorem leadsList_append (p s t : List Char) :
    leadsList p (p ++ s ++ t) = true := by
  rw [leadsList_iff_append]; exact ⟨s ++ t, by simp⟩

theorem leadsList_length_le {p s : List Char} (h : leadsList p s = true) :
    p.length ≤ s.length := by
  rcases (leadsList_iff_append p s).1 h with ⟨t, rfl⟩
  simp

theorem findSub_some_drop {s pat : List Char} {k : Nat}
    (h : findSub s pat = some k) : leadsList pat (s.drop k) = true := by
  induction s generalizing k with
  | nil =>
    rw [findSub] at h
    split at h
    · rename_i hl; cases h; simpa using hl
    · simp at h
  | cons c t ih =>
    rw [findSub] at h
    split at h
    · rename_i hl; cases h; simpa using hl
    · simp only [Option.map_eq_some'] at h
      obtain ⟨j, hj, rfl⟩ := h
      simpa using ih hj

theorem findSub_none_drop {s pat : List Char} (h : findSub s pat = none) :
    ∀ k, leadsList pat (s.drop k) = false := by
  induction s with
  | nil =>
    intro k
    rw [findSub] at h
    split at h
    · simp at h
    · simp only [List.drop_nil]
      rename_i hl; simpa using hl
  | cons c t ih =>
    intro k
    rw [findSub] at h
    split at h
    · simp at h
    · simp only [Option.map_eq_none'] at h
      cases k with
      | zero => rename_i hl; simpa using hl
      | succ k => simpa using ih h k

theorem hasSub_iff_exists (s pat : List Char) :
    hasSub s pat = true ↔ ∃ k, leadsList pat (s.drop k) = true := by
  unfold hasSub
  constructor
  · intro h
    match hf : findSub s pat with
    | some k => exact ⟨k, findSub_some_drop hf⟩
    | none => rw [hf] at h; simp at h
  · rintro ⟨k, hk⟩
    match hf : findSub s pat with
    | some j => simp
    | none => rw [findSub_none_drop hf k] at hk; cases hk

theorem hasSub_false_iff (s pat : List Char) :
    hasSub s pat = false ↔ ∀ k, leadsList pat (s.drop k) = false := by
  constructor
  · intro h k
    by_cases hk : leadsList pat (s.drop k) = true
    · have := (hasSub_iff_exists s pat).2 ⟨k, hk⟩
      rw [h] at this; cases this
    · simpa using hk
  · intro h
    by_cases hh : hasSub s pat = true
    · rcases (hasSub_iff_exists s pat).1 hh with ⟨k, hk⟩
      rw [h k] at hk; cases hk
    · simpa using hh

theorem countSub_zero_iff {pat : List Char} (hp : pat ≠ []) (s : List Char) :
    countSub s pat = 0 ↔ hasSub s pat = false := by
  induction s with
  | nil =>
    simp only [countSub, hasSub_false_iff, List.drop_nil, true_iff]
    intro k
    by_cases hk : leadsList pat [] = true
    · exact absurd ((leadsList_nil pat).1 hk) hp
    · simpa using hk
  | cons c t ih =>
    rw [countSub]
    constructor
    · intro h
      have h0 : leadsList pat (c :: t) = false := by
        by_cases hl : leadsList pat (c :: t) = true
        · rw [hl] at h; simp at h
        · simpa using hl
      have ht : countSub t pat = 0 := by rw [h0] at h; simpa using h
      rw [hasSub_false_iff]
      intro k
      cases k with
      | zero => simpa using h0
      | succ k =>
        rw [List.drop_succ_cons]
        exact (hasSub_false_iff t pat).1 (ih.1 ht) k
    · intro h
      rw [hasSub_false_iff] at h
      have h0 : leadsList pat (c :: t) = false := by simpa using h 0
      have ht : hasSub t pat = false := by
        rw [hasSub_false_iff]
        intro k
        simpa using h (k + 1)
      rw [h0, ih.2 ht]
      simp

-- ## Embedding of `src/utils/ref_regex.py`

/-- Model of `clear_text` (ref_regex.py, lines 115-133): replaces each entry of
`chars_to_remove` — the two-character raw sequence backslash-`n` first, then
`[`, `]`, `<`, `>`, the single backslash, and the double quote — by a space,
in that order; empty input returns the empty string. -/
def clear_text (text : List Char) : List Char :=
  if text = [] then []
  else
    [['\\', 'n'], ['['], [']'], ['<'], ['>'], ['\\'], ['"']].foldl
      (fun acc p => replaceAll acc p [' ']) text

/-- One attempted match of the pattern `PROJECT-\d+` at the head of `s`
(ref_regex.py, line 84): the project name, a dash, and a nonempty greedy digit
group.  Returns the length of the match and the full matched token.  The
source splices the project name into the regex verbatim; the model treats it
as a literal string, which is exact for metacharacter-free project names such
as `PDFBOX`. -/
def issueMatchAt (project s : List Char) : Option (Nat × List Char) :=
  if leadsList (project ++ ['-']) s then
    if digitRun (s.drop (project.length + 1)) = [] then none
    else some (project.length + 1 + (digitRun (s.drop (project.length + 1))).length,
      project ++ '-' :: digitRun (s.drop (project.length + 1)))
  else none

theorem issueMatchAt_pos {project s : List Char} {len : Nat} {m : List Char}
    (h : issueMatchAt project s = some (len, m)) : 0 < len := by
  unfold issueMatchAt at h
  split at h
  · split at h
    · simp at h
    · simp only [Option.some.injEq, Prod.mk.injEq] at h
      omega
  · simp at h

/-- Fuelled body of `issueScan`; a fuel of the string length suffices since
every match is nonempty (`issueMatchAt_pos`). -/
def issueScanGo (project : List Char) : Nat → List Char → List (List Char)
  | 0, _ => []
  | _ + 1, [] => []
  | f + 1, c :: t =>
    match issueMatchAt project (c :: t) with
    | some (len, m) => m :: issueScanGo project f ((c :: t).drop len)
    | none => issueScanGo project f t

/-- Left-to-right non-overlapping scan of `issue_matcher.findall`
(ref_regex.py, line 85). -/
def issueScan (project s : List Char) : List (List Char) :=
  issueScanGo project s.length s

/-- Model of `extract_issues` (ref_regex.py, lines 75-85): falsy text yields
an empty set, otherwise the set of `findall` matches of `PROJECT-\d+`. -/
def extract_issues (text project_name : List Char) : Finset (List Char) :=
  if text = [] then ∅ else (issueScan project_name text).toFinset

/-- One attempted match of a literal token followed by a nonempty greedy digit
group, used for the branches `r`, `[Rr]evision ` and `[Cc]ommit ` of
`SVN_REVISION_REGEX` (ref_regex.py, line 13).  Returns total match length and
the captured digit group. -/
def tryTok (tok s : List Char) : Option (Nat × List Char) :=
  if leadsList tok s then
    if digitRun (s.drop tok.length) = [] then none
    else some (tok.length + (digitRun (s.drop tok.length)).length, digitRun (s.drop tok.length))
  else none

/-- One attempted match of the branch `[Rr]ev. ` of `SVN_REVISION_REGEX` for a
fixed first letter `r0`: the regex `.` is a wildcard for any character except
a newline, so the token is `r0`, `e`, `v`, any non-newline character, then a
space, followed by the nonempty greedy digit group. -/
def tryRevDot (r0 : Char) (s : List Char) : Option (Nat × List Char) :=
  match s with
  | c0 :: c1 :: c2 :: c3 :: c4 :: rest =>
    if c0 = r0 ∧ c1 = 'e' ∧ c2 = 'v' ∧ c3 ≠ '\n' ∧ c4 = ' ' then
      if digitRun rest = [] then none
      else some (5 + (digitRun rest).length, digitRun rest)
    else none
  | _ => none

/-- One attempted match of `SVN_REVISION_REGEX` at the head of `s`, with the
alternation tried in the order written in the source:
`r`, `[Rr]ev. `, `[Rr]evision `, `[Cc]ommit `, each branch succeeding only
when a digit follows (otherwise the engine backtracks into the next
branch). -/
def svnMatchAt (s : List Char) : Option (Nat × List Char) :=
  match tryTok ['r'] s with
  | some m => some m
  | none =>
  match tryRevDot 'R' s with
  | some m => some m
  | none =>
  match tryRevDot 'r' s with
  | some m => some m
  | none =>
  match tryTok "Revision ".data s with
  | some m => some m
  | none =>
  match tryTok "revision ".data s with
  | some m => some m
  | none =>
  match tryTok "Commit ".data s with
  | some m => some m
  | none => tryTok "commit ".data s

theorem tryTok_pos {tok s : List Char} {len : Nat} {d : List Char}
    (h : tryTok tok s = some (len, d)) : 0 < len := by
  unfold tryTok at h
  split at h
  · split at h
    · simp at h
    · rename_i hds
      simp only [Option.some.injEq, Prod.mk.injEq] at h
      have : 0 < (digitRun (s.drop tok.length)).length := List.length_pos.mpr hds
      omega
  · simp at h

theorem tryRevDot_pos {r0 : Char} {s : List Char} {len : Nat} {d : List Char}
    (h : tryRevDot r0 s = some (len, d)) : 0 < len := by
  unfold tryRevDot at h
  split at h
  · split at h
    · split at h
      · simp at h
      · simp only [Option.some.injEq, Prod.mk.injEq] at h
        omega
    · simp at h
  · simp at h

theorem svnMatchAt_pos {s : List Char} {len : Nat} {d : List Char}
    (h : svnMatchAt s = some (len, d)) : 0 < len := by
  unfold svnMatchAt at h
  split at h
  · rename_i h1; cases h; exact tryTok_pos h1
  split at h
  · rename_i h2; cases h; exact tryRevDot_pos h2
  split at h
  · rename_i h3; cases h; exact tryRevDot_pos h3
  split at h
  · rename_i h4; cases h; exact tryTok_pos h4
  split at h
  · rename_i h5; cases h; exact tryTok_pos h5
  split at h
  · rename_i h6; cases h; exact tryTok_pos h6
  · exact tryTok_pos h

/-- Fuelled body of `svnScan`; a fuel of the string length suffices since
every match is nonempty (`svnMatchAt_pos`). -/
def svnScanGo : Nat → List Char → List (List Char)
  | 0, _ => []
  | _ + 1, [] => []
  | f + 1, c :: t =>
    match svnMatchAt (c :: t) with
    | some (len, d) => d :: svnScanGo f ((c :: t).drop len)
    | none => svnScanGo f t

/-- Left-to-right non-overlapping scan of `svn_revision_matcher.findall`
(ref_regex.py, line 96): the pattern has exactly one capturing group, so
`findall` returns the digit groups. -/
def svnScan (s : List Char) : List (List Char) := svnScanGo s.length s

/-- Lowercase hexadecimal character, the class `[0-9a-f]` of
`GIT_COMMIT_REGEX` (ref_regex.py, line 14). -/
def isHexLower (c : Char) : Bool := c.isDigit || ('a' ≤ c && c ≤ 'f')

/-- Whether `[0-9a-f]{40}` matches at the head of `s`. -/
def hexMatchAt (s : List Char) : Bool :=
  decide (40 ≤ s.length) && (s.take 40).all isHexLower

/-- Fuelled body of `hexScan`. -/
def hexScanGo : Nat → List Char → List (List Char)
  | 0, _ => []
  | _ + 1, [] => []
  | f + 1, c :: t =>
    if hexMatchAt (c :: t) then (c :: t).take 40 :: hexScanGo f ((c :: t).drop 40)
    else hexScanGo f t

/-- Left-to-right non-overlapping scan of `git_commit_matcher.findall`: the
pattern has no groups, so `findall` returns the full 40-character windows. -/
def hexScan (s : List Char) : List (List Char) := hexScanGo s.length s

/-- Model of `extract_revisions` (ref_regex.py, lines 88-96): falsy text
yields an empty set, otherwise the set of the concatenated `findall` results
of the SVN-revision pattern and the 40-character commit-hash pattern. -/
def extract_revisions (text : List Char) : Finset (List Char) :=
  if text = [] then ∅ else (svnScan text ++ hexScan text).toFinset

/-- Fuelled body of `numScan`. -/
def numScanGo : Nat → List Char → List (List Char)
  | 0, _ => []
  | _ + 1, [] => []
  | f + 1, c :: t =>
    if c.isDigit then
      (c :: t.takeWhile Char.isDigit) :: numScanGo f (t.dropWhile Char.isDigit)
    else numScanGo f t

/-- Left-to-right scan of `re.findall(r'\d+', text)`: maximal digit runs. -/
def numScan (s : List Char) : List (List Char) := numScanGo s.length s

/-- Decimal value of a digit string, the model of Python `int`. -/
def charsToNat (ds : List Char) : Nat :=
  ds.foldl (fun n c => n * 10 + (c.toNat - 48)) 0

/-- Model of `extract_numbers` (ref_regex.py, lines 99-112): falsy text yields
an empty list, otherwise the numbers matched by `\d+` in order. -/
def extract_numbers (text : List Char) : List Nat :=
  if text = [] then [] else (numScan text).map charsToNat

-- ## A small backtracking regex engine for `URL_REGEX`

/-- Abstract syntax of the regular expressions handled by `reLens`.
`alt` is ordered choice, `star` is greedy, `nla` is a negative lookahead —
exactly the backtracking semantics of the Python `re` engine for the
constructs appearing in `URL_REGEX` (ref_regex.py, lines 7-12). -/
inductive RE : Type
  | eps : RE
  | cls : (Char → Bool) → RE
  | seq : RE → RE → RE
  | alt : RE → RE → RE
  | star : RE → RE
  | nla : RE → RE

/-- Deduplication keeping the first occurrence of each value.  Two branches of
the backtracking search that consume the same number of characters behave
identically afterwards, so collapsing them onto the earliest (most preferred)
one preserves both the preferred match length and matchability. -/
def dedupFirstAux : List Nat → List Nat → List Nat
  | _, [] => []
  | seen, x :: xs =>
    if x ∈ seen then dedupFirstAux seen xs else x :: dedupFirstAux (x :: seen) xs

def dedupKeepFirst (l : List Nat) : List Nat := dedupFirstAux [] l

/-- The consumed-length lists of all ways `r` can match a prefix of `s`, in
backtracking preference order (head = the length the Python engine commits
to).  All starred/plus subexpressions of `URL_REGEX` consume at least one
character per iteration, so the greedy `star` needs no empty-body handling
beyond returning `[0]` on empty input.  The fuel makes the recursion
structural; every recursive call strictly decreases `sizeOf r + s.length`, so
a fuel above that measure never truncates the search. -/
def reLens : Nat → RE → List Char → List Nat
  | 0, _, _ => []
  | f + 1, r, s =>
    match r with
    | .eps => [0]
    | .cls p =>
      match s with
      | [] => []
      | c :: _ => if p c then [1] else []
    | .seq a b =>
      dedupKeepFirst ((reLens f a s).flatMap fun l => (reLens f b (s.drop l)).map (· + l))
    | .alt a b => dedupKeepFirst (reLens f a s ++ reLens f b s)
    | .nla a => if reLens f a s = [] then [0] else []
    | .star a =>
      match s with
      | [] => [0]
      | c :: t =>
        dedupKeepFirst
          ((((reLens f a (c :: t)).filter (fun l => 0 < l)).flatMap fun l =>
            (reLens f (.star a) ((c :: t).drop l)).map (· + l)) ++ [0])

def chrRE (c : Char) : RE := .cls (fun x => x = c)

def strRE (cs : List Char) : RE := cs.foldr (fun c acc => .seq (chrRE c) acc) .eps

def optRE (r : RE) : RE := .alt r .eps

def plusRE (r : RE) : RE := .seq r (.star r)

/-- `r{0,n}`, greedy. -/
def repUpTo (r : RE) : Nat → RE
  | 0 => .eps
  | n + 1 => optRE (.seq r (repUpTo r n))

/-- `r{n}`. -/
def repExact (r : RE) : Nat → RE
  | 0 => .eps
  | n + 1 => .seq r (repExact r n)

/-- Python `\s` (ASCII range; the evaluated texts are ASCII). -/
def wsChar (c : Char) : Bool :=
  c = ' ' || c = '\t' || c = '\n' || c = '\r' || c = '\x0b' || c = '\x0c'

def nonSpaceRE : RE := .cls (fun c => !wsChar c)

def digitRE : RE := .cls Char.isDigit

def dotRE : RE := chrRE '.'

/-- `(?:(?:https?|ftp):)?\/\/` -/
def schemeRE : RE :=
  .seq (optRE (.seq (.alt (.seq (strRE "http".data) (optRE (chrRE 's')))
    (strRE "ftp".data)) (chrRE ':'))) (strRE "//".data)

/-- `(?:\S+(?::\S*)?@)?` -/
def userinfoRE : RE :=
  optRE (.seq (plusRE nonSpaceRE)
    (.seq (optRE (.seq (chrRE ':') (.star nonSpaceRE))) (chrRE '@')))

/-- `\d{1,3}`, greedy. -/
def rep13digit : RE := .seq digitRE (repUpTo digitRE 2)

/-- `(?:10|127)(?:\.\d{1,3}){3}` -/
def ipEx1 : RE :=
  .seq (.alt (strRE "10".data) (strRE "127".data)) (repExact (.seq dotRE rep13digit) 3)

/-- `(?:169\.254|192\.168)(?:\.\d{1,3}){2}` -/
def ipEx2 : RE :=
  .seq (.alt (strRE "169.254".data) (strRE "192.168".data))
    (repExact (.seq dotRE rep13digit) 2)

/-- `172\.(?:1[6-9]|2\d|3[0-1])(?:\.\d{1,3}){2}` -/
def ipEx3 : RE :=
  .seq (strRE "172.".data)
    (.seq (.alt (.seq (chrRE '1') (.cls (fun c => '6' ≤ c && c ≤ '9')))
      (.alt (.seq (chrRE '2') digitRE)
        (.seq (chrRE '3') (.cls (fun c => c = '0' || c = '1')))))
      (repExact (.seq dotRE rep13digit) 2))

/-- `(?:[1-9]\d?|1\d\d|2[01]\d|22[0-3])` -/
def octet1RE : RE :=
  .alt (.seq (.cls (fun c => '1' ≤ c && c ≤ '9')) (optRE digitRE))
    (.alt (.seq (chrRE '1') (.seq digitRE digitRE))
      (.alt (.seq (chrRE '2') (.seq (.cls (fun c => c = '0' || c = '1')) digitRE))
        (.seq (strRE "22".data) (.cls (fun c => '0' ≤ c && c ≤ '3')))))

/-- `(?:1?\d{1,2}|2[0-4]\d|25[0-5])` -/
def octet2RE : RE :=
  .alt (.seq (optRE (chrRE '1')) (.seq digitRE (optRE digitRE)))
    (.alt (.seq (chrRE '2') (.seq (.cls (fun c => '0' ≤ c && c ≤ '4')) digitRE))
      (.seq (strRE "25".data) (.cls (fun c => '0' ≤ c && c ≤ '5'))))

/-- `(?:[1-9]\d?|1\d\d|2[0-4]\d|25[0-4])` -/
def octet3RE : RE :=
  .alt (.seq (.cls (fun c => '1' ≤ c && c ≤ '9')) (optRE digitRE))
    (.alt (.seq (chrRE '1') (.seq digitRE digitRE))
      (.alt (.seq (chrRE '2') (.seq (.cls (fun c => '0' ≤ c && c ≤ '4')) digitRE))
        (.seq (strRE "25".data) (.cls (fun c => '0' ≤ c && c ≤ '4')))))

/-- The dotted-quad IPv4 host branch with its three negative lookaheads. -/
def ipv4RE : RE :=
  .seq (.nla ipEx1) (.seq (.nla ipEx2) (.seq (.nla ipEx3)
    (.seq octet1RE (.seq (repExact (.seq dotRE octet2RE) 2) (.seq dotRE octet3RE)))))

/-- `[a-z0-9¡-￿]` -/
def alnumU : RE :=
  .cls (fun c => ('a' ≤ c && c ≤ 'z') || c.isDigit || (0xa1 ≤ c.toNat && c.toNat ≤ 0xffff))

/-- `[a-z0-9¡-￿_-]` -/
def midU : RE :=
  .cls (fun c => ('a' ≤ c && c ≤ 'z') || c.isDigit
    || (0xa1 ≤ c.toNat && c.toNat ≤ 0xffff) || c = '_' || c = '-')

/-- `(?:[a-z0-9¡-￿][a-z0-9¡-￿_-]{0,62})?[a-z0-9¡-￿]\.` -/
def labelRE : RE :=
  .seq (optRE (.seq alnumU (repUpTo midU 62))) (.seq alnumU (chrRE '.'))

/-- `[a-z¡-￿]` -/
def tldcRE : RE :=
  .cls (fun c => ('a' ≤ c && c ≤ 'z') || (0xa1 ≤ c.toNat && c.toNat ≤ 0xffff))

/-- `(?:[a-z¡-￿]{2,}\.?)` -/
def tldRE : RE := .seq tldcRE (.seq tldcRE (.seq (.star tldcRE) (optRE dotRE)))

def hostRE : RE := .alt ipv4RE (.seq (plusRE labelRE) tldRE)

/-- `(?::\d{2,5})?` -/
def portRE : RE :=
  optRE (.seq (chrRE ':') (.seq digitRE (.seq digitRE (repUpTo digitRE 3))))

/-- `(?:[/?#]\S*)?` -/
def pathRE : RE :=
  optRE (.seq (.cls (fun c => c = '/' || c = '?' || c = '#')) (.star nonSpaceRE))

/-- The full `URL_REGEX` of ref_regex.py, lines 7-12. -/
def urlRE : RE := .seq schemeRE (.seq userinfoRE (.seq hostRE (.seq portRE pathRE)))

/-- Structural size of a pattern, used to choose a sufficient matcher fuel. -/
def reSize : RE → Nat
  | .eps => 1
  | .cls _ => 1
  | .seq a b => reSize a + reSize b + 1
  | .alt a b => reSize a + reSize b + 1
  | .star a => reSize a + 1
  | .nla a => reSize a + 1

/-- Fuelled body of `reFindall`; each attempted position runs the matcher
with a fuel above its recursion measure, so the search is never truncated. -/
def reFindallGo (r : RE) : Nat → List Char → List (List Char)
  | 0, _ => []
  | _ + 1, [] => []
  | f + 1, c :: t =>
    match (reLens (reSize r + (c :: t).length + 1) r (c :: t)).head? with
    | some len =>
      if 0 < len then (c :: t).take len :: reFindallGo r f ((c :: t).drop len)
      else reFindallGo r f t
    | none => reFindallGo r f t

/-- `url_matcher.findall`: non-overlapping leftmost matches, each taking the
engine-preferred (head) length; the pattern has only non-capturing groups, so
`findall` returns full matches. -/
def reFindall (r : RE) (s : List Char) : List (List Char) := reFindallGo r s.length s

-- ## `extract_urls` and the classifier of `src/utils/__init__.py`

/-- Python `s.endswith(p)`. -/
def endsList (p s : List Char) : Bool := leadsList p.reverse s.reverse

/-- Model of `extract_urls` (ref_regex.py, lines 23-72): falsy text yields the
empty set; otherwise the cleared text's URL matches pass through the staged
pipeline — keep only matches starting with `http`, strip one trailing
character from `. \ ? , : /`, strip a trailing `)` when no `(` occurs in the
URL, optionally drop URLs starting with `https://svn.apache.org`, and
optionally drop URLs that themselves contain an issue token. -/
def extract_urls (text project : List Char)
    (filter_svn_revisions filter_issues : Bool) : Finset (List Char) :=
  if text = [] then ∅
  else
    let urls0 := (reFindall urlRE (clear_text text)).toFinset
    let urls1 := urls0.filter (fun u => leadsList "http".data u = true)
    let urls2 := urls1.image (fun u =>
      match u.getLast? with
      | some c =>
        if c = '.' ∨ c = '\\' ∨ c = '?' ∨ c = ',' ∨ c = ':' ∨ c = '/' then u.dropLast else u
      | none => u)
    let urls3 := urls2.image (fun u =>
      if u.getLast? = some ')' ∧ '(' ∉ u then u.dropLast else u)
    let urls4 :=
      if filter_svn_revisions then
        urls3.filter (fun u => ¬ leadsList "https://svn.apache.org".data u = true)
      else urls3
    if filter_issues then urls4.filter (fun u => extract_issues u project = ∅) else urls4

/-- The default keys of `filter_mailing_list_urls` (utils/__init__.py,
line 84); the source's mutable default argument always evaluates to this
list. -/
def mailing_list_keys : List (List Char) := ["mail-archives".data, "markmail".data]

/-- Model of `filter_mailing_list_urls` (utils/__init__.py, lines 75-85). -/
def filter_mailing_list_urls (urls : Finset (List Char)) : Finset (List Char) :=
  urls.filter (fun u => (mailing_list_keys.any fun k => hasSub u k) = true)

/-- Model of `filter_pdf_document_urls` (utils/__init__.py, lines 65-72). -/
def filter_pdf_document_urls (urls : Finset (List Char)) : Finset (List Char) :=
  urls.filter (fun u => endsList ".pdf".data u = true)

/-- Model of `extract_references` (utils/__init__.py, lines 40-62). -/
def extract_references (text project : List Char) :
    Finset (List Char) × Finset (List Char) × Finset (List Char) ×
      Finset (List Char) × Finset (List Char) :=
  let urls := extract_urls text project true true
  let revisions := extract_revisions text
  let mailing_lists := filter_mailing_list_urls urls
  let urls1 := urls \ mailing_lists
  let pdf_documents := filter_pdf_document_urls urls1
  let urls2 := urls1 \ pdf_documents
  let other_issues := extract_issues text project
  (urls2, revisions, mailing_lists, pdf_documents, other_issues)

-- ## The markup protector of `src/utils/__init__.py`

/-- The opening token with a language spec, the literal text of the regex
branch `{code:` (utils/__init__.py, line 116). -/
def openColon : List Char := "\x7bcode:".data

/-- The bare opening / closing token, the literal `{code}`. -/
def cbTok : List Char := "\x7bcode\x7d".data

/-- The common five-character stem `{code` of both tokens. -/
def codeOpen : List Char := "\x7bcode".data

/-- One attempted match of `(({code:((?s).*?)})|({code}))((?s).*?){code}` at
the head of `s`.  The alternation first tries `{code:` with the language spec
captured lazily up to the first `}`; lazy backtracking to a later `}` can
never succeed when the first fails (a closing `{code}` after a later `}` is
also after the first), so taking the first `}` is exact.  The block content is
likewise lazy: it ends at the first following `{code}`.  The two opening
tokens differ at their sixth character, so at most one branch's literal can
match. -/
def matchCodeAt (s : List Char) : Option (List Char) :=
  if leadsList openColon s then
    match findSub (s.drop 6) ['\x7d'] with
    | none => none
    | some j =>
      match findSub ((s.drop 6).drop (j + 1)) cbTok with
      | none => none
      | some k =>
        some (openColon ++ (s.drop 6).take j ++ '\x7d' ::
          (((s.drop 6).drop (j + 1)).take k ++ cbTok))
  else if leadsList cbTok s then
    match findSub (s.drop 6) cbTok with
    | none => none
    | some k => some (cbTok ++ (s.drop 6).take k ++ cbTok)
  else none

/-- `pattern.search(string)` of the listing pattern: the leftmost match. -/
def searchCode : List Char → Option (List Char)
  | [] => none
  | c :: t =>
    match matchCodeAt (c :: t) with
    | some m => some m
    | none => searchCode t

/-- `re.search(r"{code:((?s).*?)}", content)` (utils/__init__.py, line 127):
the leftmost occurrence of `{code:`, with the language captured lazily up to
the first `}`; returns `(group(0), group(1))`. -/
def searchLang : List Char → Option (List Char × List Char)
  | [] => none
  | c :: t =>
    if leadsList openColon (c :: t) then
      match findSub ((c :: t).drop 6) ['\x7d'] with
      | some j =>
        some (openColon ++ ((c :: t).drop 6).take j ++ ['\x7d'],
          ((c :: t).drop 6).take j)
      | none => searchLang t
    else searchLang t

def lstBeginPlain : List Char := "\\begin\x7blstlisting\x7d".data

def lstBeginLang (lang : List Char) : List Char :=
  "\\begin\x7blstlisting\x7d[language=".data ++ lang ++ [']']

def lstEnd : List Char := "\\end\x7blstlisting\x7d\\ ".data

/-- The `if to_latex` body of `extract_code_listings` (utils/__init__.py,
lines 126-134): when the content contains a `{code:<spec>}` section its first
occurrence becomes the language-tagged begin directive, otherwise the first
`{code}` becomes the plain begin directive; then the first remaining `{code}`
becomes the end directive. -/
def toLatexContent (content : List Char) : List Char :=
  replaceFirst
    (match searchLang content with
     | some sl => replaceFirst content sl.1 (lstBeginLang sl.2)
     | none => replaceFirst content cbTok lstBeginPlain)
    cbTok lstEnd

/-- Fuelled body of `chunks400`. -/
def chunks400Go : Nat → List Char → List (List Char)
  | 0, _ => []
  | f + 1, s => if s = [] then [] else s.take 400 :: chunks400Go f (s.drop 400)

/-- The chunks `content[i:i+400] for i in range(0, len(content), 400)`. -/
def chunks400 (s : List Char) : List (List Char) := chunks400Go s.length s

/-- The hard wrap of `extract_code_listings` (utils/__init__.py, lines
135-139): contents longer than 400 characters get a line break inserted every
400 characters. -/
def hardWrap (content : List Char) : List Char :=
  if 400 < content.length then List.intercalate ['\n'] (chunks400 content)
  else content

/-- The placeholder `"<<!PDFGEN{}!>>".format(listing_index)`. -/
def pdfgenKey (n : Nat) : List Char :=
  "<<!PDFGEN".data ++ natToChars n ++ "!>>".data

/-- The `while True` loop of `extract_code_listings` (utils/__init__.py,
lines 118-140), with an explicit fuel: search for the leftmost listing,
replace every occurrence of the matched text by the placeholder (the source's
`string.replace(content, key)` has no count argument), convert and hard-wrap
the content, and append the listing. -/
def extractGo : Nat → List Char → Nat → List (List Char × List Char) → Bool →
    List Char × List (List Char × List Char)
  | 0, s, _, acc, _ => (s, acc.reverse)
  | f + 1, s, idx, acc, tl =>
    match searchCode s with
    | none => (s, acc.reverse)
    | some content =>
      extractGo f (replaceAll s content (pdfgenKey idx)) (idx + 1)
        ((pdfgenKey idx, hardWrap (if tl then toLatexContent content else content)) :: acc) tl

/-- Model of `extract_code_listings` (utils/__init__.py, lines 100-141).  The
fuel `countSub s cbTok` is exact: every matched block ends with a closing
`{code}` that the replacement removes while the placeholder (angle brackets,
uppercase letters, digits) re-creates none, so each iteration strictly
decreases the count of `{code}` occurrences — this is proved below
(`extractGo_fuel_irrelevant`). -/
def extract_code_listings (s : List Char) (to_latex : Bool) :
    List Char × List (List Char × List Char) :=
  extractGo (countSub s cbTok) s 1 [] to_latex

/-- Modelled from the spec: the generic special-character escaping transform
applied between listing extraction and restoration.  The source imports it
from the external `pylatex` library (`pylatex.utils.escape_latex`, not part
of `src/`); its fixed character map is reproduced here. -/
def escChar (c : Char) : List Char :=
  if c = '&' then ['\\', '&']
  else if c = '%' then ['\\', '%']
  else if c = '$' then ['\\', '$']
  else if c = '#' then ['\\', '#']
  else if c = '_' then ['\\', '_']
  else if c = '\x7b' then ['\\', '\x7b']
  else if c = '\x7d' then ['\\', '\x7d']
  else if c = '~' then
    ['\\', 't', 'e', 'x', 't', 'a', 's', 'c', 'i', 'i', 't', 'i', 'l', 'd', 'e', '\x7b', '\x7d']
  else if c = '^' then
    ['\\', 't', 'e', 'x', 't', 'a', 's', 'c', 'i', 'i', 'c', 'i', 'r', 'c', 'u', 'm', '\x7b', '\x7d']
  else if c = '\\' then
    ['\\', 't', 'e', 'x', 't', 'b', 'a', 'c', 'k', 's', 'l', 'a', 's', 'h', '\x7b', '\x7d']
  else if c = '\n' then ['\\', 'n', 'e', 'w', 'l', 'i', 'n', 'e', '%', '\n']
  else if c = '-' then ['\x7b', '-', '\x7d']
  else if c = '\xa0' then ['~']
  else if c = '[' then ['\x7b', '[', '\x7d']
  else if c = ']' then ['\x7b', ']', '\x7d']
  else [c]

/-- Modelled from the spec: `pylatex.utils.escape_latex`, character by
character. -/
def escape_latex (s : List Char) : List Char := s.flatMap escChar

/-- The `{noformat}` token as it appears after escaping: the raw string
`r"\{noformat\}"` of the source (utils/__init__.py, line 94), spelled out
character by character. -/
def nfEsc : List Char :=
  ['\\', '\x7b', 'n', 'o', 'f', 'o', 'r', 'm', 'a', 't', '\\', '\x7d']

/-- The raw `{noformat}` token. -/
def nfTok : List Char := ['\x7b', 'n', 'o', 'f', 'o', 'r', 'm', 'a', 't', '\x7d']

def spvBegin : List Char := "\\begin\x7bspverbatim\x7d".data

def spvEnd : List Char := "\\end\x7bspverbatim\x7d\\ ".data

/-- The `while` loop of `noformat_to_latex` (utils/__init__.py, lines 94-96)
with an explicit fuel: while the escaped token occurs, its first occurrence
becomes the begin directive and the next one the end directive.  The fuel
`countSub s nfEsc` is exact: each iteration replaces at least one occurrence
by text that contains none and whose juxtaposition can create none. -/
def noformatGo : Nat → List Char → List Char
  | 0, s => s
  | f + 1, s =>
    if (findSub s nfEsc).isSome then
      noformatGo f (replaceFirst (replaceFirst s nfEsc spvBegin) nfEsc spvEnd)
    else s

/-- Model of `noformat_to_latex` (utils/__init__.py, lines 88-97). -/
def noformat_to_latex (s : List Char) : List Char := noformatGo (countSub s nfEsc) s

/-- Model of `escape_with_listings` (utils/__init__.py, lines 144-157):
extract the listings, escape the protected text, restore each listing by
replacing the first occurrence of its placeholder in order, then convert
`{noformat}` pairs.  The `NoEscape` wrapper of the source is the identity on
the underlying string. -/
def escape_with_listings (s : List Char) : List Char :=
  noformat_to_latex
    ((extract_code_listings s true).2.foldl
      (fun acc kc => replaceFirst acc kc.1 kc.2)
      (escape_latex (extract_code_listings s true).1))

-- ## Claim C7: falsy inputs

/-- C7: empty (falsy) text input yields an empty set/sequence (or empty
string) from every extractor — `extract_urls`, `extract_revisions`,
`extract_issues`, `extract_numbers`, `clear_text` — and `extract_references`
on empty text returns five empty sets, for every project and every flag
combination.  All embedded extractors are total functions, so no input can
raise an error. -/
theorem falsy_text_yields_empty (p : List Char) (b1 b2 : Bool) :
    extract_urls [] p b1 b2 = ∅ ∧
    extract_revisions [] = ∅ ∧
    extract_issues [] p = ∅ ∧
    extract_numbers [] = [] ∧
    clear_text [] = [] ∧
    extract_references [] p = (∅, ∅, ∅, ∅, ∅) := by
  refine ⟨rfl, rfl, rfl, rfl, rfl, ?_⟩
  simp only [extract_references, extract_urls, extract_revisions, extract_issues,
    if_pos rfl]
  rfl

-- ## Claim C3: partition disjointness and the mailing-list tie-break

/-- The mailing-list predicate of `filter_mailing_list_urls`. -/
def mlPred (u : List Char) : Bool := mailing_list_keys.any fun k => hasSub u k

/-- C3: in the tuple returned by `extract_references`, the three URL-derived
sets are pairwise disjoint; moreover no element of the PDF bucket satisfies
the mailing-list predicate, and every extracted URL satisfying both the
mailing-list predicate and the `.pdf` suffix predicate is classified into the
mailing-list bucket — the tie-break of the subtractive classification. -/
theorem extract_references_partition (t p : List Char) :
    Disjoint (extract_references t p).1 (extract_references t p).2.2.1 ∧
    Disjoint (extract_references t p).1 (extract_references t p).2.2.2.1 ∧
    Disjoint (extract_references t p).2.2.1 (extract_references t p).2.2.2.1 ∧
    (extract_references t p).2.2.2.1.filter (fun u => mlPred u = true) = ∅ ∧
    (extract_urls t p true true).filter
        (fun u => (mlPred u && endsList ".pdf".data u) = true) ⊆
      (extract_references t p).2.2.1 := by
  simp only [extract_references]
  refine ⟨?_, ?_, ?_, ?_, ?_⟩
  · exact Finset.disjoint_of_subset_left Finset.sdiff_subset Finset.sdiff_disjoint
  · exact Finset.sdiff_disjoint
  · exact Finset.disjoint_of_subset_right (Finset.filter_subset _ _)
      Finset.sdiff_disjoint.symm
  · apply Finset.eq_empty_of_forall_not_mem
    intro u hu
    simp only [filter_pdf_document_urls, filter_mailing_list_urls, mlPred,
      Finset.mem_filter, Finset.mem_sdiff] at hu
    exact hu.1.1.2 ⟨hu.1.1.1, hu.2⟩
  · intro u hu
    simp only [Finset.mem_filter, Bool.and_eq_true] at hu
    simp only [filter_mailing_list_urls, mlPred, Finset.mem_filter]
    exact ⟨hu.1, hu.2.1⟩

-- ## Claim C4: empty text and empty project in `extract_issues`

/-- C4 counterexample: with an empty project the spliced pattern degenerates
to `-\d+`, which matches the bare token `-3` in `x-3`; the result is not the
empty set, contradicting the claim that an empty project always yields an
empty set. -/
theorem extract_issues_empty_project_counterexample :
    "-3".data ∈ extract_issues "x-3".data [] := by decide

/-- C4 amended: empty/absent text yields the empty set for every value of the
project argument; an empty project does not guarantee an empty result — on
the text `x-3` it produces exactly the bare token `-3`. -/
theorem extract_issues_empty_text (p : List Char) :
    extract_issues [] p = ∅ ∧ extract_issues "x-3".data [] = {"-3".data} :=
  ⟨rfl, by decide⟩

-- ## Claims C1 and C2: the replace-all slip of `extract_code_listings`

/-- C1, evaluated at the failing input `{code}a{code}{code}a{code}`: the text
contains two well-formed code blocks (with identical text), yet the listings
sequence has a single entry and its placeholder `<<!PDFGEN1!>>` occurs twice
in the protected text, because `string.replace(content, key)` (line 125)
replaces every occurrence, not just the first.  The restore loop of
`escape_with_listings` replaces each key once, so the second occurrence
survives as garbage — the claimed exactly-`N`-listings / exactly-once-key
round trip fails. -/
theorem extract_code_listings_duplicate_blocks :
    (extract_code_listings
        "\x7bcode\x7da\x7bcode\x7d\x7bcode\x7da\x7bcode\x7d".data true).2.length = 1 ∧
    countSub (extract_code_listings
        "\x7bcode\x7da\x7bcode\x7d\x7bcode\x7da\x7bcode\x7d".data true).1
      (pdfgenKey 1) = 2 := by
  constructor <;> decide

/-- C2, evaluated at the failing input `{code}a{code}x{code}a{code}`: the
first (and only) iteration of the loop replaces both textual occurrences of
the leftmost match `{code}a{code}` with the placeholder, not only the first
occurrence as claimed, leaving one listing instead of two. -/
theorem extract_code_listings_first_occurrence_only_fails :
    (extract_code_listings
        "\x7bcode\x7da\x7bcode\x7dx\x7bcode\x7da\x7bcode\x7d".data true).1 =
      "<<!PDFGEN1!>>x<<!PDFGEN1!>>".data ∧
    (extract_code_listings
        "\x7bcode\x7da\x7bcode\x7dx\x7bcode\x7da\x7bcode\x7d".data true).2.length = 1 := by
  constructor <;> decide

-- ## Claim C8: the 400-character hard wrap

theorem chunks400Go_nil : ∀ f, chunks400Go f [] = []
  | 0 => rfl
  | _ + 1 => by simp [chunks400Go]

theorem chunks400Go_congr :
    ∀ f g s, s.length ≤ f → s.length ≤ g → chunks400Go f s = chunks400Go g s := by
  intro f
  induction f with
  | zero =>
    intro g s hf _
    have hs : s = [] := List.length_eq_zero.mp (Nat.le_zero.mp hf)
    subst hs
    rw [chunks400Go_nil, chunks400Go_nil]
  | succ f ih =>
    intro g s hf hg
    by_cases hs : s = []
    · subst hs; rw [chunks400Go_nil, chunks400Go_nil]
    · have h1 : 0 < s.length := List.length_pos.mpr hs
      cases g with
      | zero => omega
      | succ g =>
        simp only [chunks400Go, if_neg hs]
        congr 1
        apply ih
        · simp only [List.length_drop]; omega
        · simp only [List.length_drop]; omega

theorem chunks400_cons {s : List Char} (hs : s ≠ []) :
    chunks400 s = s.take 400 :: chunks400 (s.drop 400) := by
  have h1 : 0 < s.length := List.length_pos.mpr hs
  have e1 : chunks400Go s.length s = chunks400Go (s.length - 1 + 1) s := by
    congr 1
    omega
  unfold chunks400
  rw [e1]
  simp only [chunks400Go, if_neg hs]
  congr 1
  apply chunks400Go_congr
  · simp only [List.length_drop]; omega
  · simp only [List.length_drop]; omega

theorem intercalate_single (sep a : List Char) : List.intercalate sep [a] = a := by
  simp [List.intercalate, List.intersperse]

theorem intercalate_pair (sep a : List Char) {l : List (List Char)} (hl : l ≠ []) :
    List.intercalate sep (a :: l) = a ++ sep ++ List.intercalate sep l := by
  cases l with
  | nil => cases hl rfl
  | cons b l => simp [List.intercalate, List.intersperse]

/-- C8: contents of at most 400 characters are left unwrapped by the hard
wrap of `extract_code_listings`; longer contents get a line break inserted
after each 400-character chunk (stated as the recursive unfolding); in
particular a content of exactly 401 characters gets exactly one inserted
break, after the 400th character. -/
theorem hardWrap_boundary (s : List Char) :
    (s.length ≤ 400 → hardWrap s = s) ∧
    (400 < s.length → hardWrap s = s.take 400 ++ '\n' :: hardWrap (s.drop 400)) ∧
    (s.length = 401 → hardWrap s = s.take 400 ++ '\n' :: s.drop 400) := by
  have h1 : s.length ≤ 400 → hardWrap s = s := by
    intro h
    unfold hardWrap
    rw [if_neg (by omega)]
  have h2 : 400 < s.length → hardWrap s = s.take 400 ++ '\n' :: hardWrap (s.drop 400) := by
    intro h
    have hs : s ≠ [] := by
      intro e
      subst e
      simp at h
    have hd : s.drop 400 ≠ [] := by
      intro e
      have := congrArg List.length e
      simp only [List.length_drop, List.length_nil] at this
      omega
    unfold hardWrap
    rw [if_pos h, chunks400_cons hs]
    by_cases h4 : 400 < (s.drop 400).length
    · rw [if_pos h4]
      rw [intercalate_pair _ _ (by rw [chunks400_cons hd]; simp)]
      simp
    · rw [if_neg h4]
      have hck : chunks400 (s.drop 400) = [s.drop 400] := by
        rw [chunks400_cons hd]
        have e1 : (s.drop 400).take 400 = s.drop 400 :=
          List.take_of_length_le (by omega)
        have e2 : (s.drop 400).drop 400 = [] :=
          List.drop_eq_nil_of_le (by omega)
        rw [e1, e2]
        rfl
      rw [hck, intercalate_pair _ _ (by simp), intercalate_single]
      simp
  refine ⟨h1, h2, ?_⟩
  intro h
  rw [h2 (by omega)]
  have : hardWrap (s.drop 400) = s.drop 400 := by
    unfold hardWrap
    rw [if_neg (by simp only [List.length_drop]; omega)]
  rw [this]

/-- Witness for C8 at a concrete 401-character content. -/
theorem hardWrap_boundary_witness :
    (List.replicate 401 'a').length = 401 ∧
    hardWrap (List.replicate 401 'a') =
      (List.replicate 401 'a').take 400 ++ '\n' :: (List.replicate 401 'a').drop 400 :=
  ⟨by simp, (hardWrap_boundary _).2.2 (by simp)⟩

-- ## Claim C6: the SVN-revision URL filter

/-- Host component of a URL as the claim's words describe it: the text after
the `//` separator, up to the first `/`, `?`, `#` or `:`.  This definition
follows the claim's vocabulary (not the source) and is only used to compare
the claimed host predicate with the code's literal prefix test. -/
def urlHost (u : List Char) : List Char :=
  match findSub u "//".data with
  | none => []
  | some k =>
    (u.drop (k + 2)).takeWhile (fun c => !(c = '/' || c = '?' || c = '#' || c = ':'))

/-- C6 counterexample: the candidate URL `http://svn.apache.org/r1` has host
`svn.apache.org`, yet `extract_urls` with `filter_svn_revisions = True`
keeps it, because the stage tests the literal string prefix
`https://svn.apache.org` (ref_regex.py, line 61) rather than the host. -/
theorem svn_filter_not_host_based :
    "http://svn.apache.org/r1".data ∈
      extract_urls "see http://svn.apache.org/r1 ok".data "PDFBOX".data true true ∧
    urlHost "http://svn.apache.org/r1".data = "svn.apache.org".data := by
  constructor <;> decide

/-- C6 amended: with `filter_svn_revisions` true (the default), `extract_urls`
returns exactly the `filter_svn_revisions = False` result with the URLs whose
text starts with the literal prefix `https://svn.apache.org` removed; the
test is a prefix test on the URL string, so `http`-scheme URLs of the SVN
host are retained and any `https` URL merely extending the prefix (a
different host such as `svn.apache.org.evil.example`) is dropped. -/
theorem svn_filter_amended (t p : List Char) (fi : Bool) :
    extract_urls t p true fi =
      (extract_urls t p false fi).filter
        (fun u => ¬ leadsList "https://svn.apache.org".data u = true) := by
  by_cases ht : t = []
  · subst ht
    simp [extract_urls]
  · simp only [extract_urls, if_neg ht]
    cases fi
    · simp
    · simp only [if_true, if_false, Bool.false_eq_true]
      exact Finset.filter_comm _ _ _

-- ## Claim C10: termination of the listing-extraction loop

theorem replaceAllGo_nil : ∀ f pat rep, replaceAllGo f [] pat rep = []
  | 0, _, _ => rfl
  | _ + 1, _, _ => rfl

theorem replaceAllGo_congr :
    ∀ f g s pat rep, s.length ≤ f → s.length ≤ g →
      replaceAllGo f s pat rep = replaceAllGo g s pat rep := by
  intro f
  induction f with
  | zero =>
    intro g s pat rep hf _
    have hs : s = [] := List.length_eq_zero.mp (Nat.le_zero.mp hf)
    subst hs
    rw [replaceAllGo_nil, replaceAllGo_nil]
  | succ f ih =>
    intro g s pat rep hf hg
    cases s with
    | nil => rw [replaceAllGo_nil, replaceAllGo_nil]
    | cons c t =>
      cases g with
      | zero => simp at hg
      | succ g =>
        simp only [replaceAllGo]
        split
        · rename_i hcond
          have hp : 0 < pat.length := List.length_pos.mpr hcond.1
          congr 1
          apply ih
          · simp only [List.length_drop, List.length_cons] at hf ⊢
            omega
          · simp only [List.length_drop, List.length_cons] at hg ⊢
            omega
        · congr 1
          apply ih
          · simp only [List.length_cons] at hf
            omega
          · simp only [List.length_cons] at hg
            omega

theorem replaceAll_cons_pos {pat : List Char} {c : Char} {t : List Char}
    (hcond : pat ≠ [] ∧ leadsList pat (c :: t) = true) (rep : List Char) :
    replaceAll (c :: t) pat rep =
      rep ++ replaceAll ((c :: t).drop pat.length) pat rep := by
  have hp : 0 < pat.length := List.length_pos.mpr hcond.1
  unfold replaceAll
  simp only [List.length_cons, replaceAllGo, if_pos hcond]
  congr 1
  apply replaceAllGo_congr
  · simp only [List.length_drop, List.length_cons]
    omega
  · omega

theorem replaceAll_cons_neg {pat : List Char} {c : Char} {t : List Char}
    (hcond : ¬ (pat ≠ [] ∧ leadsList pat (c :: t) = true)) (rep : List Char) :
    replaceAll (c :: t) pat rep = c :: replaceAll t pat rep := by
  unfold replaceAll
  simp only [List.length_cons, replaceAllGo, if_neg hcond]

theorem countSub_append_right (a b pat : List Char) :
    countSub b pat ≤ countSub (a ++ b) pat := by
  induction a with
  | nil => simp
  | cons x a ih =>
    simp only [List.cons_append, countSub, List.append_eq]
    omega

theorem countSub_block (d b cb : List Char) (hcb : cb ≠ []) :
    1 + countSub b cb ≤ countSub ((d ++ cb) ++ b) cb := by
  induction d with
  | nil =>
    simp only [List.nil_append]
    cases cb with
    | nil => cases hcb rfl
    | cons y cb' =>
      simp only [List.cons_append, countSub, List.append_eq]
      have h1 : leadsList (y :: cb') (y :: (cb' ++ b)) = true := by
        rw [leadsList_iff_append]
        exact ⟨b, by simp⟩
      rw [if_pos h1]
      have := countSub_append_right cb' b (y :: cb')
      omega
  | cons x d ih =>
    simp only [List.cons_append, countSub, List.append_eq] at ih ⊢
    omega

theorem countSub_clean_prepend {k cb : List Char}
    (hk : ∀ c ∈ k, c ∉ cb) (hcb : cb ≠ []) (b : List Char) :
    countSub (k ++ b) cb = countSub b cb := by
  induction k with
  | nil => simp
  | cons x k ih =>
    simp only [List.cons_append, countSub, List.append_eq]
    have h0 : leadsList cb (x :: (k ++ b)) = false := by
      cases cb with
      | nil => cases hcb rfl
      | cons y cb' =>
        by_cases hl : leadsList (y :: cb') (x :: (k ++ b)) = true
        · exfalso
          simp only [leadsList, Bool.and_eq_true, decide_eq_true_eq] at hl
          exact hk x (by simp) (by rw [hl.1]; simp)
        · simpa using hl
    rw [if_neg (by rw [h0]; simp)]
    rw [ih (fun c hc => hk c (by simp [hc]))]
    simp

/-- A pattern over the alphabet of `cb` that leads the output of a
replacement whose replacement text is disjoint from that alphabet also leads
the input: replacements can only destroy, never create, such prefixes. -/
theorem leads_replaceAllGo {cb pat key : List Char}
    (hk : ∀ c ∈ key, c ∉ cb) (hkey : key ≠ []) :
    ∀ f t p, (∀ c ∈ p, c ∈ cb) →
      leadsList p (replaceAllGo f t pat key) = true → leadsList p t = true := by
  intro f
  induction f with
  | zero =>
    intro t p _ h
    simpa [replaceAllGo] using h
  | succ f ih =>
    intro t p hp h
    cases t with
    | nil =>
      rw [replaceAllGo_nil] at h
      have := (leadsList_nil p).1 h
      subst this
      simp [leadsList]
    | cons c t' =>
      by_cases hcond : pat ≠ [] ∧ leadsList pat (c :: t') = true
      · simp only [replaceAllGo, if_pos hcond] at h
        cases p with
        | nil => simp [leadsList]
        | cons x p' =>
          exfalso
          cases key with
          | nil => exact hkey rfl
          | cons k0 k' =>
            simp only [List.cons_append, leadsList, Bool.and_eq_true,
              decide_eq_true_eq] at h
            exact hk k0 (by simp) (by rw [← h.1]; exact hp x (by simp))
      · simp only [replaceAllGo, if_neg hcond] at h
        cases p with
        | nil => simp [leadsList]
        | cons x p' =>
          simp only [leadsList, Bool.and_eq_true, decide_eq_true_eq] at h ⊢
          exact ⟨h.1, ih t' p' (fun c hc => hp c (by simp [hc])) h.2⟩

/-- Replacing a pattern that contains the block token `cb` by a key disjoint
from `cb`'s alphabet never increases the number of `cb` occurrences. -/
theorem countSub_replaceAllGo_le {cb d key : List Char}
    (hcb : cb ≠ []) (hk : ∀ c ∈ key, c ∉ cb) (hkey : key ≠ []) :
    ∀ f t, t.length ≤ f →
      countSub (replaceAllGo f t (d ++ cb) key) cb ≤ countSub t cb := by
  intro f
  induction f with
  | zero =>
    intro t ht
    have hs : t = [] := List.length_eq_zero.mp (Nat.le_zero.mp ht)
    subst hs
    simp [replaceAllGo]
  | succ f ih =>
    intro t ht
    cases t with
    | nil =>
      rw [replaceAllGo_nil]
    | cons c t' =>
      have hpat : (d ++ cb) ≠ [] := by
        intro e
        exact hcb (List.append_eq_nil.mp e).2
      by_cases hcond : (d ++ cb) ≠ [] ∧ leadsList (d ++ cb) (c :: t') = true
      · simp only [replaceAllGo, if_pos hcond]
        rw [countSub_clean_prepend hk hcb]
        rcases (leadsList_iff_append (d ++ cb) (c :: t')).1 hcond.2 with ⟨rest, hrest⟩
        have hdrop : (c :: t').drop (d ++ cb).length = rest := by
          rw [hrest, List.drop_left]
        rw [hdrop]
        have hlenrest : rest.length ≤ f := by
          have hlen := congrArg List.length hrest
          have hp1 : 0 < (d ++ cb).length := List.length_pos.mpr hpat
          simp only [List.length_cons, List.length_append] at hlen ht ⊢
          simp only [List.length_append] at hp1
          omega
        have h1 := ih rest hlenrest
        have h2 : 1 + countSub rest cb ≤ countSub (c :: t') cb := by
          rw [hrest]
          exact countSub_block d rest cb hcb
        omega
      · simp only [replaceAllGo, if_neg hcond]
        rw [countSub]
        conv_rhs => rw [countSub]
        have ht' : t'.length ≤ f := by
          simp only [List.length_cons] at ht
          omega
        have hmono :
            (if leadsList cb (c :: replaceAllGo f t' (d ++ cb) key) = true then 1 else 0) ≤
              (if leadsList cb (c :: t') = true then 1 else 0) := by
          split
          · rename_i hl
            have hold : leadsList cb (c :: t') = true := by
              cases cb with
              | nil => exact absurd rfl hcb
              | cons y cb'' =>
                simp only [leadsList, Bool.and_eq_true, decide_eq_true_eq] at hl ⊢
                refine ⟨hl.1, ?_⟩
                exact leads_replaceAllGo hk hkey f t' cb''
                  (fun ch hc => by simp [hc]) hl.2
            rw [if_pos hold]
          · omega
        have := ih t' ht'
        omega

/-- Replacing an occurring pattern that ends with the block token strictly
decreases the number of block-token occurrences. -/
theorem countSub_replaceAllGo_lt {cb d key : List Char}
    (hcb : cb ≠ []) (hk : ∀ c ∈ key, c ∉ cb) (hkey : key ≠ []) :
    ∀ f t, t.length ≤ f → hasSub t (d ++ cb) = true →
      countSub (replaceAllGo f t (d ++ cb) key) cb < countSub t cb := by
  intro f
  induction f with
  | zero =>
    intro t ht hocc
    have hs : t = [] := List.length_eq_zero.mp (Nat.le_zero.mp ht)
    subst hs
    exfalso
    rcases (hasSub_iff_exists _ _).1 hocc with ⟨k, hk2⟩
    simp only [List.drop_nil, leadsList_nil] at hk2
    exact hcb (List.append_eq_nil.mp hk2).2
  | succ f ih =>
    intro t ht hocc
    cases t with
    | nil =>
      exfalso
      rcases (hasSub_iff_exists _ _).1 hocc with ⟨k, hk2⟩
      simp only [List.drop_nil, leadsList_nil] at hk2
      exact hcb (List.append_eq_nil.mp hk2).2
    | cons c t' =>
      have hpat : (d ++ cb) ≠ [] := by
        intro e
        exact hcb (List.append_eq_nil.mp e).2
      by_cases hcond : (d ++ cb) ≠ [] ∧ leadsList (d ++ cb) (c :: t') = true
      · simp only [replaceAllGo, if_pos hcond]
        rw [countSub_clean_prepend hk hcb]
        rcases (leadsList_iff_append (d ++ cb) (c :: t')).1 hcond.2 with ⟨rest, hrest⟩
        have hdrop : (c :: t').drop (d ++ cb).length = rest := by
          rw [hrest, List.drop_left]
        rw [hdrop]
        have hlenrest : rest.length ≤ f := by
          have hlen := congrArg List.length hrest
          have hp1 : 0 < (d ++ cb).length := List.length_pos.mpr hpat
          simp only [List.length_cons, List.length_append] at hlen ht ⊢
          simp only [List.length_append] at hp1
          omega
        have h1 := @countSub_replaceAllGo_le cb d key hcb hk hkey f rest hlenrest
        have h2 : 1 + countSub rest cb ≤ countSub (c :: t') cb := by
          rw [hrest]
          exact countSub_block d rest cb hcb
        omega
      · simp only [replaceAllGo, if_neg hcond]
        have hl : leadsList (d ++ cb) (c :: t') = false := by
          by_cases h : leadsList (d ++ cb) (c :: t') = true
          · exact absurd ⟨hpat, h⟩ hcond
          · simpa using h
        have hocct' : hasSub t' (d ++ cb) = true := by
          rcases (hasSub_iff_exists _ _).1 hocc with ⟨k, hk2⟩
          cases k with
          | zero =>
            simp only [List.drop_zero] at hk2
            rw [hl] at hk2
            cases hk2
          | succ k =>
            rw [List.drop_succ_cons] at hk2
            exact (hasSub_iff_exists _ _).2 ⟨k, hk2⟩
        rw [countSub]
        conv_rhs => rw [countSub]
        have ht' : t'.length ≤ f := by
          simp only [List.length_cons] at ht
          omega
        have hmono :
            (if leadsList cb (c :: replaceAllGo f t' (d ++ cb) key) = true then 1 else 0) ≤
              (if leadsList cb (c :: t') = true then 1 else 0) := by
          split
          · rename_i hl2
            have hold : leadsList cb (c :: t') = true := by
              cases cb with
              | nil => exact absurd rfl hcb
              | cons y cb'' =>
                simp only [leadsList, Bool.and_eq_true, decide_eq_true_eq] at hl2 ⊢
                refine ⟨hl2.1, ?_⟩
                exact leads_replaceAllGo hk hkey f t' cb''
                  (fun ch hc => by simp [hc]) hl2.2
            rw [if_pos hold]
          · omega
        have := ih t' ht' hocct'
        omega

theorem matchCodeAt_ends {s m : List Char} (h : matchCodeAt s = some m) :
    ∃ d, m = d ++ cbTok := by
  unfold matchCodeAt at h
  by_cases h1 : leadsList openColon s = true
  · rw [if_pos h1] at h
    cases hj : findSub (s.drop 6) ['\x7d'] with
    | none =>
      simp only [hj] at h
      exact Option.noConfusion h
    | some j =>
      simp only [hj] at h
      cases hk : findSub ((s.drop 6).drop (j + 1)) cbTok with
      | none =>
        simp only [hk] at h
        exact Option.noConfusion h
      | some k =>
        simp only [hk, Option.some.injEq] at h
        exact ⟨openColon ++ (s.drop 6).take j ++
          '\x7d' :: ((s.drop 6).drop (j + 1)).take k, by rw [← h]; simp⟩
  · rw [if_neg h1] at h
    by_cases h2 : leadsList cbTok s = true
    · rw [if_pos h2] at h
      cases hk : findSub (s.drop 6) cbTok with
      | none =>
        simp only [hk] at h
        exact Option.noConfusion h
      | some k =>
        simp only [hk, Option.some.injEq] at h
        exact ⟨cbTok ++ (s.drop 6).take k, by rw [← h]⟩
    · rw [if_neg h2] at h
      exact Option.noConfusion h

theorem drop_decomp {l pat : List Char} {k : Nat}
    (h : leadsList pat (l.drop k) = true) :
    l = l.take k ++ pat ++ l.drop (k + pat.length) := by
  rcases (leadsList_iff_append _ _).1 h with ⟨u, hu⟩
  have h2 : l.drop (k + pat.length) = u := by
    have h3 := congrArg (List.drop pat.length) hu
    rw [List.drop_left] at h3
    rw [← h3, List.drop_drop]
  conv_lhs => rw [← List.take_append_drop k l]
  rw [hu, h2]
  simp

theorem matchCodeAt_leads {s m : List Char} (h : matchCodeAt s = some m) :
    leadsList m s = true := by
  unfold matchCodeAt at h
  by_cases h1 : leadsList openColon s = true
  · rw [if_pos h1] at h
    cases hj : findSub (s.drop 6) ['\x7d'] with
    | none =>
      simp only [hj] at h
      exact Option.noConfusion h
    | some j =>
      simp only [hj] at h
      cases hk : findSub ((s.drop 6).drop (j + 1)) cbTok with
      | none =>
        simp only [hk] at h
        exact Option.noConfusion h
      | some k =>
        simp only [hk, Option.some.injEq] at h
        rcases (leadsList_iff_append _ _).1 h1 with ⟨u, hu⟩
        have hu6 : s.drop 6 = u := by
          rw [hu]
          have e : openColon.length = 6 := rfl
          rw [← e, List.drop_left]
        rw [hu6] at h hj hk
        have hdj : u = u.take j ++ ['\x7d'] ++ u.drop (j + 1) := by
          have := drop_decomp (findSub_some_drop hj)
          simpa using this
        have hdk : u.drop (j + 1) =
            (u.drop (j + 1)).take k ++ cbTok ++ (u.drop (j + 1)).drop (k + cbTok.length) :=
          drop_decomp (findSub_some_drop hk)
        rw [leadsList_iff_append]
        refine ⟨(u.drop (j + 1)).drop (k + cbTok.length), ?_⟩
        rw [hu, ← h]
        conv_lhs => rw [hdj]
        conv_lhs => rw [hdk]
        simp
  · rw [if_neg h1] at h
    by_cases h2 : leadsList cbTok s = true
    · rw [if_pos h2] at h
      cases hk : findSub (s.drop 6) cbTok with
      | none =>
        simp only [hk] at h
        exact Option.noConfusion h
      | some k =>
        simp only [hk, Option.some.injEq] at h
        rcases (leadsList_iff_append _ _).1 h2 with ⟨u, hu⟩
        have hu6 : s.drop 6 = u := by
          rw [hu]
          have e : cbTok.length = 6 := rfl
          rw [← e, List.drop_left]
        rw [hu6] at h hk
        have hdk : u = u.take k ++ cbTok ++ u.drop (k + cbTok.length) :=
          drop_decomp (by simpa using findSub_some_drop hk)
        rw [leadsList_iff_append]
        refine ⟨u.drop (k + cbTok.length), ?_⟩
        rw [hu, ← h]
        conv_lhs => rw [hdk]
        simp
    · rw [if_neg h2] at h
      exact Option.noConfusion h

theorem searchCode_occurs {s m : List Char} (h : searchCode s = some m) :
    ∃ i, leadsList m (s.drop i) = true := by
  induction s with
  | nil => simp [searchCode] at h
  | cons c t ih =>
    cases hm : matchCodeAt (c :: t) with
    | some m' =>
      simp only [searchCode, hm, Option.some.injEq] at h
      subst h
      exact ⟨0, by simpa using matchCodeAt_leads hm⟩
    | none =>
      simp only [searchCode, hm] at h
      rcases ih h with ⟨i, hi⟩
      exact ⟨i + 1, by simpa using hi⟩

theorem searchCode_ends {s m : List Char} (h : searchCode s = some m) :
    ∃ d, m = d ++ cbTok := by
  induction s with
  | nil => simp [searchCode] at h
  | cons c t ih =>
    cases hm : matchCodeAt (c :: t) with
    | some m' =>
      simp only [searchCode, hm, Option.some.injEq] at h
      subst h
      exact matchCodeAt_ends hm
    | none =>
      simp only [searchCode, hm] at h
      exact ih h

theorem searchCode_hasSub {s m : List Char} (h : searchCode s = some m) :
    hasSub s m = true := by
  rcases searchCode_occurs h with ⟨i, hi⟩
  exact (hasSub_iff_exists _ _).2 ⟨i, hi⟩

theorem searchCode_countSub_pos {s m : List Char} (h : searchCode s = some m) :
    1 ≤ countSub s cbTok := by
  rcases searchCode_occurs h with ⟨i, hi⟩
  rcases searchCode_ends h with ⟨d, rfl⟩
  rcases (leadsList_iff_append _ _).1 hi with ⟨u, hu⟩
  have h2 : leadsList cbTok (s.drop (i + d.length)) = true := by
    rw [leadsList_iff_append]
    refine ⟨u, ?_⟩
    have h3 := congrArg (List.drop d.length) hu
    rw [List.append_assoc, List.drop_left] at h3
    rw [← h3, List.drop_drop]
  have h4 : hasSub s cbTok = true := (hasSub_iff_exists _ _).2 ⟨i + d.length, h2⟩
  by_cases hc : countSub s cbTok = 0
  · rw [(countSub_zero_iff (by decide) s).1 hc] at h4
    cases h4
  · omega

theorem natToCharsGo_digits :
    ∀ f n c, c ∈ natToCharsGo f n → c.isDigit = true := by
  intro f
  induction f with
  | zero =>
    intro n c h
    simp [natToCharsGo] at h
  | succ f ih =>
    intro n c h
    simp only [natToCharsGo] at h
    split at h
    · simp only [List.mem_singleton] at h
      subst h
      unfold digitChar
      have hm : n % 10 < 10 := Nat.mod_lt _ (by omega)
      set m := n % 10 with hmdef
      interval_cases m <;> decide
    · simp only [List.mem_append, List.mem_singleton] at h
      rcases h with h | h
      · exact ih _ _ h
      · subst h
        unfold digitChar
        have hm : n % 10 < 10 := Nat.mod_lt _ (by omega)
        set m := n % 10 with hmdef
        interval_cases m <;> decide

theorem pdfgenKey_clean (n : Nat) : ∀ c ∈ pdfgenKey n, c ∉ cbTok := by
  intro c hc
  unfold pdfgenKey at hc
  simp only [List.mem_append] at hc
  rcases hc with (hc | hc) | hc
  · fin_cases hc <;> decide
  · have hd := natToCharsGo_digits _ _ _ hc
    intro hmem
    have e : cbTok = ['\x7b', 'c', 'o', 'd', 'e', '\x7d'] := rfl
    rw [e] at hmem
    fin_cases hmem <;> simp_all
  · fin_cases hc <;> decide

theorem pdfgenKey_ne_nil (n : Nat) : pdfgenKey n ≠ [] := by
  unfold pdfgenKey
  simp

theorem searchCode_decrease {s m : List Char} (idx : Nat)
    (h : searchCode s = some m) :
    countSub (replaceAll s m (pdfgenKey idx)) cbTok < countSub s cbTok := by
  rcases searchCode_ends h with ⟨d, rfl⟩
  unfold replaceAll
  exact countSub_replaceAllGo_lt (by decide) (pdfgenKey_clean idx)
    (pdfgenKey_ne_nil idx) s.length s le_rfl (searchCode_hasSub h)

theorem extractGo_congr :
    ∀ n f g s idx acc tl, countSub s cbTok ≤ n →
      countSub s cbTok ≤ f → countSub s cbTok ≤ g →
      extractGo f s idx acc tl = extractGo g s idx acc tl := by
  intro n
  induction n with
  | zero =>
    intro f g s idx acc tl hn hf hg
    have hnone : searchCode s = none := by
      cases hsc : searchCode s with
      | none => rfl
      | some m =>
        have := searchCode_countSub_pos hsc
        omega
    cases f <;> cases g <;> simp [extractGo, hnone]
  | succ n ih =>
    intro f g s idx acc tl hn hf hg
    cases hsc : searchCode s with
    | none => cases f <;> cases g <;> simp [extractGo, hsc]
    | some m =>
      have hpos := searchCode_countSub_pos hsc
      cases f with
      | zero => omega
      | succ f =>
        cases g with
        | zero => omega
        | succ g =>
          simp only [extractGo, hsc]
          have hdec := searchCode_decrease idx hsc
          exact ih f g _ _ _ _ (by omega) (by omega) (by omega)

/-- C10: `extract_code_listings` terminates on every input: its
search-and-replace loop stabilises within `countSub s cbTok` iterations (any
extra fuel beyond the definition's bound yields the same result), because
each iteration strictly decreases the number of occurrences of the literal
substring `{code}` in the working string — every matched block ends with a
closing `{code}` marker and the substituted placeholder contains none of its
characters. -/
theorem extract_code_listings_terminates (s : List Char) (tl : Bool) (k idx : Nat) :
    extractGo (countSub s cbTok + k) s 1 [] tl = extract_code_listings s tl ∧
    ∀ content, searchCode s = some content →
      countSub (replaceAll s content (pdfgenKey idx)) cbTok < countSub s cbTok := by
  constructor
  · unfold extract_code_listings
    exact extractGo_congr (countSub s cbTok) _ _ s 1 [] tl le_rfl (by omega) le_rfl
  · intro content hc
    exact searchCode_decrease idx hc

/-- Witness for C10 at the concrete input `{code}a{code}`. -/
theorem extract_code_listings_terminates_witness :
    searchCode "\x7bcode\x7da\x7bcode\x7d".data =
      some "\x7bcode\x7da\x7bcode\x7d".data ∧
    countSub (replaceAll "\x7bcode\x7da\x7bcode\x7d".data
        "\x7bcode\x7da\x7bcode\x7d".data (pdfgenKey 1)) cbTok <
      countSub "\x7bcode\x7da\x7bcode\x7d".data cbTok :=
  ⟨by decide,
    (extract_code_listings_terminates "\x7bcode\x7da\x7bcode\x7d".data true 0 1).2
      "\x7bcode\x7da\x7bcode\x7d".data (by decide)⟩

-- ## Claim C9: `escape_with_listings` on listing-free, noformat-free text

theorem leads_prefix_of_append {p q s : List Char}
    (h : leadsList (p ++ q) s = true) : leadsList p s = true := by
  rcases (leadsList_iff_append _ _).1 h with ⟨u, rfl⟩
  rw [leadsList_iff_append]
  exact ⟨q ++ u, by simp⟩

theorem extract_code_listings_no_open {s : List Char} (tl : Bool)
    (h : hasSub s codeOpen = false) : extract_code_listings s tl = (s, []) := by
  unfold extract_code_listings
  have hz : countSub s cbTok = 0 := by
    apply (countSub_zero_iff (by decide) s).2
    rw [hasSub_false_iff] at h ⊢
    intro k
    by_cases hl : leadsList cbTok (s.drop k) = true
    · have hco : leadsList codeOpen (s.drop k) = true := by
        have e : codeOpen ++ ['\x7d'] = cbTok := rfl
        exact leads_prefix_of_append (e.symm ▸ hl)
      rw [h k] at hco
      cases hco
    · simpa using hl
  rw [hz]
  rfl

/-- Exhaustive enumeration of the escape map: for every character the escaped
block is one of the fifteen special images or the character itself. -/
theorem escChar_enum (c : Char) :
    (c = '&' ∧ escChar c = ['\\', '&']) ∨
    (c = '%' ∧ escChar c = ['\\', '%']) ∨
    (c = '$' ∧ escChar c = ['\\', '$']) ∨
    (c = '#' ∧ escChar c = ['\\', '#']) ∨
    (c = '_' ∧ escChar c = ['\\', '_']) ∨
    (c = '\x7b' ∧ escChar c = ['\\', '\x7b']) ∨
    (c = '\x7d' ∧ escChar c = ['\\', '\x7d']) ∨
    (c = '~' ∧ escChar c =
      ['\\', 't', 'e', 'x', 't', 'a', 's', 'c', 'i', 'i', 't', 'i', 'l', 'd', 'e', '\x7b', '\x7d']) ∨
    (c = '^' ∧ escChar c =
      ['\\', 't', 'e', 'x', 't', 'a', 's', 'c', 'i', 'i', 'c', 'i', 'r', 'c', 'u', 'm', '\x7b', '\x7d']) ∨
    (c = '\\' ∧ escChar c =
      ['\\', 't', 'e', 'x', 't', 'b', 'a', 'c', 'k', 's', 'l', 'a', 's', 'h', '\x7b', '\x7d']) ∨
    (c = '\n' ∧ escChar c = ['\\', 'n', 'e', 'w', 'l', 'i', 'n', 'e', '%', '\n']) ∨
    (c = '-' ∧ escChar c = ['\x7b', '-', '\x7d']) ∨
    (c = '\xa0' ∧ escChar c = ['~']) ∨
    (c = '[' ∧ escChar c = ['\x7b', '[', '\x7d']) ∨
    (c = ']' ∧ escChar c = ['\x7b', ']', '\x7d']) ∨
    ((c ≠ '\\' ∧ c ≠ '\x7b' ∧ c ≠ '~') ∧ escChar c = [c]) := by
  by_cases h1 : c = '&'
  · subst h1; exact Or.inl ⟨rfl, rfl⟩
  by_cases h2 : c = '%'
  · subst h2; exact Or.inr (Or.inl ⟨rfl, rfl⟩)
  by_cases h3 : c = '$'
  · subst h3; exact Or.inr (Or.inr (Or.inl ⟨rfl, rfl⟩))
  by_cases h4 : c = '#'
  · subst h4; exact Or.inr (Or.inr (Or.inr (Or.inl ⟨rfl, rfl⟩)))
  by_cases h5 : c = '_'
  · subst h5; exact Or.inr (Or.inr (Or.inr (Or.inr (Or.inl ⟨rfl, rfl⟩))))
  by_cases h6 : c = '\x7b'
  · subst h6
    exact Or.inr (Or.inr (Or.inr (Or.inr (Or.inr (Or.inl ⟨rfl, rfl⟩)))))
  by_cases h7 : c = '\x7d'
  · subst h7
    exact Or.inr (Or.inr (Or.inr (Or.inr (Or.inr (Or.inr (Or.inl ⟨rfl, rfl⟩))))))
  by_cases h8 : c = '~'
  · subst h8
    exact Or.inr (Or.inr (Or.inr (Or.inr (Or.inr (Or.inr (Or.inr (Or.inl ⟨rfl, rfl⟩)))))))
  by_cases h9 : c = '^'
  · subst h9
    exact Or.inr (Or.inr (Or.inr (Or.inr (Or.inr (Or.inr (Or.inr (Or.inr (Or.inl
      ⟨rfl, rfl⟩))))))))
  by_cases h10 : c = '\\'
  · subst h10
    exact Or.inr (Or.inr (Or.inr (Or.inr (Or.inr (Or.inr (Or.inr (Or.inr (Or.inr (Or.inl
      ⟨rfl, rfl⟩)))))))))
  by_cases h11 : c = '\n'
  · subst h11
    exact Or.inr (Or.inr (Or.inr (Or.inr (Or.inr (Or.inr (Or.inr (Or.inr (Or.inr (Or.inr
      (Or.inl ⟨rfl, rfl⟩))))))))))
  by_cases h12 : c = '-'
  · subst h12
    exact Or.inr (Or.inr (Or.inr (Or.inr (Or.inr (Or.inr (Or.inr (Or.inr (Or.inr (Or.inr
      (Or.inr (Or.inl ⟨rfl, rfl⟩)))))))))))
  by_cases h13 : c = '\xa0'
  · subst h13
    exact Or.inr (Or.inr (Or.inr (Or.inr (Or.inr (Or.inr (Or.inr (Or.inr (Or.inr (Or.inr
      (Or.inr (Or.inr (Or.inl ⟨rfl, rfl⟩))))))))))))
  by_cases h14 : c = '['
  · subst h14
    exact Or.inr (Or.inr (Or.inr (Or.inr (Or.inr (Or.inr (Or.inr (Or.inr (Or.inr (Or.inr
      (Or.inr (Or.inr (Or.inr (Or.inl ⟨rfl, rfl⟩)))))))))))))
  by_cases h15 : c = ']'
  · subst h15
    exact Or.inr (Or.inr (Or.inr (Or.inr (Or.inr (Or.inr (Or.inr (Or.inr (Or.inr (Or.inr
      (Or.inr (Or.inr (Or.inr (Or.inr (Or.inl ⟨rfl, rfl⟩))))))))))))))
  refine Or.inr (Or.inr (Or.inr (Or.inr (Or.inr (Or.inr (Or.inr (Or.inr (Or.inr (Or.inr
    (Or.inr (Or.inr (Or.inr (Or.inr (Or.inr ⟨⟨h10, h6, h8⟩, ?_⟩))))))))))))))
  unfold escChar
  rw [if_neg h1, if_neg h2, if_neg h3, if_neg h4, if_neg h5, if_neg h6, if_neg h7,
    if_neg h8, if_neg h9, if_neg h10, if_neg h11, if_neg h12, if_neg h13, if_neg h14,
    if_neg h15]

theorem escChar_ne_nil (c : Char) : escChar c ≠ [] := by
  rcases escChar_enum c with ⟨_, he⟩ | ⟨_, he⟩ | ⟨_, he⟩ | ⟨_, he⟩ | ⟨_, he⟩ | ⟨_, he⟩ |
    ⟨_, he⟩ | ⟨_, he⟩ | ⟨_, he⟩ | ⟨_, he⟩ | ⟨_, he⟩ | ⟨_, he⟩ | ⟨_, he⟩ | ⟨_, he⟩ |
    ⟨_, he⟩ | ⟨_, he⟩ <;> simp [he]

theorem escChar_head {c h : Char} {t : List Char} (he : escChar c = h :: t) :
    h = '\\' ∨ h = '\x7b' ∨ h = '~' ∨ (c = h ∧ t = []) := by
  rcases escChar_enum c with ⟨hc, hb⟩ | ⟨hc, hb⟩ | ⟨hc, hb⟩ | ⟨hc, hb⟩ | ⟨hc, hb⟩ |
    ⟨hc, hb⟩ | ⟨hc, hb⟩ | ⟨hc, hb⟩ | ⟨hc, hb⟩ | ⟨hc, hb⟩ | ⟨hc, hb⟩ | ⟨hc, hb⟩ |
    ⟨hc, hb⟩ | ⟨hc, hb⟩ | ⟨hc, hb⟩ | ⟨hc, hb⟩ <;>
    (rw [hb] at he; simp only [List.cons.injEq] at he) <;>
    (obtain ⟨he1, he2⟩ := he; subst he1; subst he2; simp)

theorem escChar_bs {c : Char} {t : List Char} (he : escChar c = '\\' :: t) :
    (c = '&' ∧ t = ['&']) ∨ (c = '%' ∧ t = ['%']) ∨ (c = '$' ∧ t = ['$']) ∨
    (c = '#' ∧ t = ['#']) ∨ (c = '_' ∧ t = ['_']) ∨
    (c = '\x7b' ∧ t = ['\x7b']) ∨ (c = '\x7d' ∧ t = ['\x7d']) ∨
    (c = '~' ∧ t =
      ['t', 'e', 'x', 't', 'a', 's', 'c', 'i', 'i', 't', 'i', 'l', 'd', 'e', '\x7b', '\x7d']) ∨
    (c = '^' ∧ t =
      ['t', 'e', 'x', 't', 'a', 's', 'c', 'i', 'i', 'c', 'i', 'r', 'c', 'u', 'm', '\x7b', '\x7d']) ∨
    (c = '\\' ∧ t =
      ['t', 'e', 'x', 't', 'b', 'a', 'c', 'k', 's', 'l', 'a', 's', 'h', '\x7b', '\x7d']) ∨
    (c = '\n' ∧ t = ['n', 'e', 'w', 'l', 'i', 'n', 'e', '%', '\n']) := by
  rcases escChar_enum c with ⟨hc, hb⟩ | ⟨hc, hb⟩ | ⟨hc, hb⟩ | ⟨hc, hb⟩ | ⟨hc, hb⟩ |
    ⟨hc, hb⟩ | ⟨hc, hb⟩ | ⟨hc, hb⟩ | ⟨hc, hb⟩ | ⟨hc, hb⟩ | ⟨hc, hb⟩ | ⟨hc, hb⟩ |
    ⟨hc, hb⟩ | ⟨hc, hb⟩ | ⟨hc, hb⟩ | ⟨hc, hb⟩ <;>
    (rw [hb] at he; simp only [List.cons.injEq] at he) <;>
    first
      | (exact absurd he.1 (by decide))
      | (exact absurd he.1 hc.1)
      | (obtain ⟨he1, rfl⟩ := he; simp [hc])

/-- Escaping peels plain characters one at a time: a character that is
neither a block head (`\`, `{`, `~`) nor special passes through unchanged. -/
theorem escape_peel_plain :
    ∀ (xs : List Char), (∀ x ∈ xs, x ≠ '\\' ∧ x ≠ '\x7b' ∧ x ≠ '~') →
    ∀ s p, leadsList (xs ++ p) (escape_latex s) = true →
      ∃ s', s = xs ++ s' ∧ leadsList p (escape_latex s') = true := by
  intro xs
  induction xs with
  | nil =>
    intro _ s p h
    exact ⟨s, rfl, h⟩
  | cons x xs ih =>
    intro hx s p h
    cases s with
    | nil =>
      simp [escape_latex, leadsList] at h
    | cons c s1 =>
      have he : escape_latex (c :: s1) = escChar c ++ escape_latex s1 := rfl
      rw [he] at h
      cases hec : escChar c with
      | nil => exact absurd hec (escChar_ne_nil c)
      | cons h0 t0 =>
        rw [hec] at h
        simp only [List.cons_append, leadsList, Bool.and_eq_true,
          decide_eq_true_eq] at h
        obtain ⟨hxh, h2⟩ := h
        subst hxh
        rcases escChar_head hec with h3 | h3 | h3 | ⟨hceq, ht0⟩
        · exact absurd h3 (hx x (by simp)).1
        · exact absurd h3 (hx x (by simp)).2.1
        · exact absurd h3 (hx x (by simp)).2.2
        · subst hceq
          subst ht0
          rcases ih (fun y hy => hx y (by simp [hy])) s1 p h2 with ⟨s', rfl, hp⟩
          exact ⟨s', rfl, hp⟩

/-- If the escaped text starts with `\}` then the source starts with `}`. -/
theorem escape_final_bs {s p : List Char}
    (h : leadsList ('\\' :: '\x7d' :: p) (escape_latex s) = true) :
    ∃ s', s = '\x7d' :: s' := by
  cases s with
  | nil => simp [escape_latex, leadsList] at h
  | cons c s1 =>
    have he : escape_latex (c :: s1) = escChar c ++ escape_latex s1 := rfl
    rw [he] at h
    cases hec : escChar c with
    | nil => exact absurd hec (escChar_ne_nil c)
    | cons h0 t0 =>
      rw [hec] at h
      simp only [List.cons_append, leadsList, Bool.and_eq_true,
        decide_eq_true_eq] at h
      obtain ⟨h1, h2⟩ := h
      rw [← h1] at hec
      rcases escChar_bs hec with hb | hb | hb | hb | hb | hb | hb | hb | hb | hb | hb <;>
        obtain ⟨rfl, rfl⟩ := hb <;>
        simp only [List.cons_append, leadsList, Bool.and_eq_true,
          decide_eq_true_eq, List.nil_append] at h2
      all_goals try exact absurd h2.1 (by decide)
      exact ⟨s1, rfl⟩

/-- If the escaped text starts with the escaped `{noformat}` token, the
source text starts with the raw `{noformat}` token. -/
theorem nfEsc_leads {s : List Char}
    (h : leadsList nfEsc (escape_latex s) = true) : leadsList nfTok s = true := by
  cases s with
  | nil => simp [escape_latex, nfEsc, leadsList] at h
  | cons c s1 =>
    have he : escape_latex (c :: s1) = escChar c ++ escape_latex s1 := rfl
    rw [he] at h
    cases hec : escChar c with
    | nil => exact absurd hec (escChar_ne_nil c)
    | cons h0 t0 =>
      rw [hec] at h
      have e : nfEsc = '\\' :: '\x7b' ::
          (['n', 'o', 'f', 'o', 'r', 'm', 'a', 't'] ++ ['\\', '\x7d']) := rfl
      rw [e] at h
      simp only [List.cons_append, leadsList, Bool.and_eq_true,
        decide_eq_true_eq] at h
      obtain ⟨h1, h2⟩ := h
      rw [← h1] at hec
      rcases escChar_bs hec with hb | hb | hb | hb | hb | hb | hb | hb | hb | hb | hb <;>
        obtain ⟨rfl, rfl⟩ := hb <;>
        simp only [List.cons_append, leadsList, Bool.and_eq_true,
          decide_eq_true_eq, List.nil_append] at h2
      all_goals try exact absurd h2.1 (by decide)
      -- the `{` case remains: peel `noformat` then the closing `\}`
      rcases escape_peel_plain ['n', 'o', 'f', 'o', 'r', 'm', 'a', 't']
        (by decide) s1 ['\\', '\x7d'] h2.2 with ⟨s2, rfl, hp⟩
      rcases escape_final_bs hp with ⟨s3, rfl⟩
      rw [leadsList_iff_append]
      exact ⟨s3, rfl⟩

/-- The backslash occurs only at the head of an escape block, so the escaped
`{noformat}` token can never start strictly inside one. -/
theorem escChar_inner_no_nfEsc (c : Char) (r : List Char) :
    ∀ k, 0 < k → k < (escChar c).length →
      leadsList nfEsc ((escChar c).drop k ++ r) = false := by
  intro k h1 h2
  rcases escChar_enum c with ⟨hc, hb⟩ | ⟨hc, hb⟩ | ⟨hc, hb⟩ | ⟨hc, hb⟩ | ⟨hc, hb⟩ |
    ⟨hc, hb⟩ | ⟨hc, hb⟩ | ⟨hc, hb⟩ | ⟨hc, hb⟩ | ⟨hc, hb⟩ | ⟨hc, hb⟩ | ⟨hc, hb⟩ |
    ⟨hc, hb⟩ | ⟨hc, hb⟩ | ⟨hc, hb⟩ | ⟨hc, hb⟩ <;>
    rw [hb] at h2 ⊢ <;>
    simp only [List.length_cons, List.length_singleton, List.length_nil] at h2 <;>
    first
      | omega
      | (interval_cases k <;> simp [nfEsc, leadsList])

/-- Escaping a text with no raw `{noformat}` token produces a text with no
escaped `\{noformat\}` token: the escaped token can only arise as the image
of the raw one. -/
theorem hasSub_escape_nfEsc {s : List Char} (h : hasSub s nfTok = false) :
    hasSub (escape_latex s) nfEsc = false := by
  induction s with
  | nil => decide
  | cons c s1 ih =>
    have h0 : leadsList nfTok (c :: s1) = false :=
      (hasSub_false_iff _ _).1 h 0
    have ht : hasSub s1 nfTok = false := by
      rw [hasSub_false_iff]
      intro k
      simpa using (hasSub_false_iff _ _).1 h (k + 1)
    rw [hasSub_false_iff]
    intro k
    by_cases hk : leadsList nfEsc ((escape_latex (c :: s1)).drop k) = true
    swap
    · simpa using hk
    exfalso
    have he : escape_latex (c :: s1) = escChar c ++ escape_latex s1 := rfl
    rw [he] at hk
    by_cases hlt : k < (escChar c).length
    · rcases Nat.eq_zero_or_pos k with rfl | hpos
      · simp only [List.drop_zero] at hk
        have hlead := @nfEsc_leads (c :: s1) (by rw [he]; exact hk)
        rw [h0] at hlead
        cases hlead
      · rw [List.drop_append_of_le_length (le_of_lt hlt)] at hk
        rw [escChar_inner_no_nfEsc c _ k hpos hlt] at hk
        cases hk
    · push_neg at hlt
      have e2 : k = (escChar c).length + (k - (escChar c).length) := by omega
      rw [e2, List.drop_append] at hk
      have := (hasSub_false_iff _ _).1 (ih ht) (k - (escChar c).length)
      rw [this] at hk
      cases hk

/-- C9: for every string containing neither `{code` nor `{noformat}`,
`escape_with_listings` returns exactly `escape_latex` of the string (the
`NoEscape` wrapper is the identity): no listings are extracted, the protected
text is the input itself, the restore loop is a no-op, and the `{noformat}`
replacement loop performs no substitution. -/
theorem escape_with_listings_plain (s : List Char)
    (h1 : hasSub s codeOpen = false) (h2 : hasSub s nfTok = false) :
    extract_code_listings s true = (s, []) ∧
    escape_with_listings s = escape_latex s := by
  have hex := extract_code_listings_no_open true h1
  refine ⟨hex, ?_⟩
  unfold escape_with_listings
  rw [hex]
  simp only [List.foldl_nil]
  unfold noformat_to_latex
  rw [(countSub_zero_iff (by decide) _).2 (hasSub_escape_nfEsc h2)]
  rfl

/-- Witness for C9 at the concrete input `a_b%`. -/
theorem escape_with_listings_plain_witness :
    hasSub "a_b%".data codeOpen = false ∧
    hasSub "a_b%".data nfTok = false ∧
    escape_with_listings "a_b%".data = escape_latex "a_b%".data :=
  ⟨by decide, by decide,
    (escape_with_listings_plain "a_b%".data (by decide) (by decide)).2⟩

-- ## Claim C5: `extract_revisions` versus the claim's token list

/-- The original claim's token list, exactly as worded: the literal dot in
`Rev. ` and `rev. ` is taken at face value.  This definition follows the
claim, not the source. -/
def claimRevisionTokens : List (List Char) :=
  ["r".data, "Rev. ".data, "rev. ".data, "Revision ".data, "revision ".data,
    "Commit ".data, "commit ".data]

/-- The revision set described by the original claim: digit groups
immediately following one of the literal tokens, together with every
40-character lowercase-hexadecimal substring of the text.  This definition
follows the claim's words, to be compared with `extract_revisions`. -/
def claimRevisionsLiteral (text : List Char) : Finset (List Char) :=
  ((List.range text.length).flatMap (fun i =>
    claimRevisionTokens.filterMap (fun tok =>
      if leadsList tok (text.drop i) = true ∧
          digitRun ((text.drop i).drop tok.length) ≠ [] then
        some (digitRun ((text.drop i).drop tok.length))
      else none))).toFinset ∪
  ((List.range text.length).filterMap (fun i =>
    if 40 ≤ (text.drop i).length ∧ ((text.drop i).take 40).all isHexLower = true then
      some ((text.drop i).take 40)
    else none)).toFinset

theorem svnMatchAt_nil : svnMatchAt [] = none := by decide

theorem digit_ne_of_isDigit {c : Char} (h : c.isDigit = true) :
    c ≠ 'r' ∧ c ≠ 'R' ∧ c ≠ 'C' ∧ c ≠ 'c' := by
  refine ⟨?_, ?_, ?_, ?_⟩ <;> (rintro rfl; exact absurd h (by decide))

theorem tryTok_none_head (tok : List Char) (x : Char) (tokRest : List Char)
    (htok : tok = x :: tokRest) (c : Char) (rest : List Char) (hne : x ≠ c) :
    tryTok tok (c :: rest) = none := by
  subst htok
  have hl : leadsList (x :: tokRest) (c :: rest) = false := by
    simp only [leadsList, decide_eq_false hne, Bool.false_and]
  simp [tryTok, hl]

theorem tryRevDot_none_head (r0 x : Char) (s : List Char) (hx : x ≠ r0) :
    tryRevDot r0 (x :: s) = none := by
  rcases s with _ | ⟨c1, _ | ⟨c2, _ | ⟨c3, _ | ⟨c4, rest⟩⟩⟩⟩
  · rfl
  · rfl
  · rfl
  · rfl
  · have hc : ¬(x = r0 ∧ c1 = 'e' ∧ c2 = 'v' ∧ c3 ≠ '\n' ∧ c4 = ' ') :=
      fun hc => hx hc.1
    simp only [tryRevDot, if_neg hc]

/-- `SVN_REVISION_REGEX` cannot match at a position whose first character is
none of `r`, `R`, `C`, `c`: every branch of the alternation starts with one
of these letters. -/
theorem svnMatchAt_none_head (c : Char) (rest : List Char)
    (h1 : c ≠ 'r') (h2 : c ≠ 'R') (h3 : c ≠ 'C') (h4 : c ≠ 'c') :
    svnMatchAt (c :: rest) = none := by
  unfold svnMatchAt
  rw [tryTok_none_head ['r'] 'r' [] rfl c rest (Ne.symm h1),
      tryRevDot_none_head 'R' c rest h2,
      tryRevDot_none_head 'r' c rest h1,
      tryTok_none_head "Revision ".data 'R' "evision ".data (by decide) c rest
        (Ne.symm h2),
      tryTok_none_head "revision ".data 'r' "evision ".data (by decide) c rest
        (Ne.symm h1),
      tryTok_none_head "Commit ".data 'C' "ommit ".data (by decide) c rest
        (Ne.symm h3),
      tryTok_none_head "commit ".data 'c' "ommit ".data (by decide) c rest
        (Ne.symm h4)]

theorem svnMatchAt_none_digit {c : Char} (rest : List Char)
    (h : c.isDigit = true) : svnMatchAt (c :: rest) = none := by
  obtain ⟨h1, h2, h3, h4⟩ := digit_ne_of_isDigit h
  exact svnMatchAt_none_head c rest h1 h2 h3 h4

theorem tryTok_r_none (x y : Char) (rest : List Char) (hy : y.isDigit = false) :
    tryTok ['r'] (x :: y :: rest) = none := by
  unfold tryTok
  by_cases hl : leadsList ['r'] (x :: y :: rest) = true
  · have hd : digitRun ((x :: y :: rest).drop (['r'] : List Char).length) = [] := by
      show digitRun (y :: rest) = []
      simp [digitRun, List.takeWhile, hy]
    rw [if_pos hl, if_pos hd]
  · rw [if_neg hl]

theorem tryTok_none_second (tok : List Char) (a b : Char) (tokRest : List Char)
    (htok : tok = a :: b :: tokRest) (x y : Char) (rest : List Char)
    (hne : b ≠ y) : tryTok tok (x :: y :: rest) = none := by
  subst htok
  have hl : leadsList (a :: b :: tokRest) (x :: y :: rest) = false := by
    simp only [leadsList, decide_eq_false hne, Bool.false_and, Bool.and_false]
  simp [tryTok, hl]

theorem tryRevDot_none_second (r0 x y : Char) (rest : List Char)
    (hy : y ≠ 'e') : tryRevDot r0 (x :: y :: rest) = none := by
  rcases rest with _ | ⟨c2, _ | ⟨c3, _ | ⟨c4, rest2⟩⟩⟩
  · rfl
  · rfl
  · rfl
  · have hc : ¬(x = r0 ∧ y = 'e' ∧ c2 = 'v' ∧ c3 ≠ '\n' ∧ c4 = ' ') :=
      fun hc => hy hc.2.1
    simp only [tryRevDot, if_neg hc]

/-- `SVN_REVISION_REGEX` cannot match at a position whose second character is
a space: every branch needs either a digit (branch `r`) or a letter `e`/`o`
in second position. -/
theorem svnMatchAt_none_second_space (x : Char) (rest : List Char) :
    svnMatchAt (x :: ' ' :: rest) = none := by
  unfold svnMatchAt
  rw [tryTok_r_none x ' ' rest (by decide),
      tryRevDot_none_second 'R' x ' ' rest (by decide),
      tryRevDot_none_second 'r' x ' ' rest (by decide),
      tryTok_none_second "Revision ".data 'R' 'e' "vision ".data (by decide)
        x ' ' rest (by decide),
      tryTok_none_second "revision ".data 'r' 'e' "vision ".data (by decide)
        x ' ' rest (by decide),
      tryTok_none_second "Commit ".data 'C' 'o' "mmit ".data (by decide)
        x ' ' rest (by decide),
      tryTok_none_second "commit ".data 'c' 'o' "mmit ".data (by decide)
        x ' ' rest (by decide)]

theorem digitRun_cons_pos {a : Char} (u : List Char) (ha : a.isDigit = true) :
    digitRun (a :: u) = a :: digitRun u := by
  simp [digitRun, List.takeWhile, ha]

theorem digitRun_drop_head : ∀ (u : List Char) (i : Nat),
    i < (digitRun u).length →
    ∃ ch tl, u.drop i = ch :: tl ∧ ch.isDigit = true := by
  intro u
  induction u with
  | nil => intro i h; simp [digitRun] at h
  | cons a u ih =>
    intro i h
    by_cases ha : a.isDigit = true
    · rw [digitRun_cons_pos u ha] at h
      cases i with
      | zero => exact ⟨a, u, rfl, ha⟩
      | succ i =>
        have h2 : i < (digitRun u).length := by
          simp only [List.length_cons] at h
          omega
        obtain ⟨ch, tl, hct, hd⟩ := ih i h2
        exact ⟨ch, tl, by simpa using hct, hd⟩
    · have ha2 : a.isDigit = false := by
        revert ha; cases a.isDigit <;> simp
      have : digitRun (a :: u) = [] := by
        simp [digitRun, List.takeWhile, ha2]
      rw [this] at h
      simp at h

theorem tryTok_some_shape {tok s : List Char} {len : Nat} {d : List Char}
    (h : tryTok tok s = some (len, d)) :
    ∃ u, s = tok ++ u ∧ d = digitRun u ∧ d ≠ [] ∧
      len = tok.length + d.length := by
  unfold tryTok at h
  split at h
  · rename_i hl
    split at h
    · exact absurd h (by simp)
    · rename_i hds
      simp only [Option.some.injEq, Prod.mk.injEq] at h
      obtain ⟨u, rfl⟩ := (leadsList_iff_append tok s).1 hl
      rw [List.drop_left] at h hds
      obtain ⟨hlen, hd⟩ := h
      refine ⟨u, rfl, hd.symm, hd ▸ hds, ?_⟩
      rw [← hd]
      omega
  · exact absurd h (by simp)

theorem tryRevDot_some_shape {r0 : Char} {s : List Char} {len : Nat}
    {d : List Char} (h : tryRevDot r0 s = some (len, d)) :
    ∃ c3 u, s = r0 :: 'e' :: 'v' :: c3 :: ' ' :: u ∧ d = digitRun u ∧
      d ≠ [] ∧ len = 5 + d.length := by
  rcases s with _ | ⟨c0, _ | ⟨c1, _ | ⟨c2, _ | ⟨c3x, _ | ⟨c4, rest⟩⟩⟩⟩⟩
  · exact absurd h (by simp [tryRevDot])
  · exact absurd h (by simp [tryRevDot])
  · exact absurd h (by simp [tryRevDot])
  · exact absurd h (by simp [tryRevDot])
  · exact absurd h (by simp [tryRevDot])
  · simp only [tryRevDot] at h
    split at h
    · rename_i hc
      split at h
      · exact absurd h (by simp)
      · rename_i hds
        simp only [Option.some.injEq, Prod.mk.injEq] at h
        obtain ⟨hc0, hc1, hc2, _, hc4⟩ := hc
        subst hc0; subst hc1; subst hc2; subst hc4
        refine ⟨c3x, rest, rfl, h.2.symm, h.2 ▸ hds, ?_⟩
        rw [← h.2]
        omega
    · exact absurd h (by simp)

theorem drop_cons_get : ∀ (l : List Char) (n : Nat) (h : n < l.length),
    l.drop n = l.get ⟨n, h⟩ :: l.drop (n + 1)
  | _ :: _, 0, _ => rfl
  | a :: l, n + 1, h => by
    have := drop_cons_get l n (by simp only [List.length_cons] at h; omega)
    exact this

/-- No match of `SVN_REVISION_REGEX` starts strictly inside a match that
begins with one of the plain-token branches whose inner characters avoid
`r`, `R`, `C`, `c`. -/
theorem tryTok_inner_none {tok s : List Char} {len : Nat} {d : List Char}
    (h : tryTok tok s = some (len, d))
    (hhead : ∀ i, (hi : i < tok.length) → 0 < i →
      tok.get ⟨i, hi⟩ ≠ 'r' ∧ tok.get ⟨i, hi⟩ ≠ 'R' ∧
      tok.get ⟨i, hi⟩ ≠ 'C' ∧ tok.get ⟨i, hi⟩ ≠ 'c')
    (k : Nat) (hk : 0 < k) (hkl : k < len) :
    svnMatchAt (s.drop k) = none := by
  obtain ⟨u, rfl, hd, hne, hlen⟩ := tryTok_some_shape h
  rcases Nat.lt_or_ge k tok.length with hkt | hkt
  · rw [List.drop_append_of_le_length (le_of_lt hkt),
      drop_cons_get tok k hkt]
    obtain ⟨n1, n2, n3, n4⟩ := hhead k hkt hk
    exact svnMatchAt_none_head _ _ n1 n2 n3 n4
  · have hj : k - tok.length < (digitRun u).length := by
      rw [← hd]
      omega
    obtain ⟨ch, tl, hct, hdig⟩ := digitRun_drop_head u (k - tok.length) hj
    have hsplit : (tok ++ u).drop k = u.drop (k - tok.length) := by
      conv_lhs => rw [show k = tok.length + (k - tok.length) by omega]
      rw [List.drop_append]
    rw [hsplit, hct]
    exact svnMatchAt_none_digit tl hdig

/-- No match of `SVN_REVISION_REGEX` starts strictly inside a match of the
`[Rr]ev. ` branch. -/
theorem tryRevDot_inner_none {r0 : Char} {s : List Char} {len : Nat}
    {d : List Char} (h : tryRevDot r0 s = some (len, d))
    (k : Nat) (hk : 0 < k) (hkl : k < len) :
    svnMatchAt (s.drop k) = none := by
  obtain ⟨c3, u, rfl, hd, hne, hlen⟩ := tryRevDot_some_shape h
  rcases Nat.lt_or_ge k 5 with hk5 | hk5
  · interval_cases k
    · exact svnMatchAt_none_head 'e' ('v' :: c3 :: ' ' :: u)
        (by decide) (by decide) (by decide) (by decide)
    · exact svnMatchAt_none_head 'v' (c3 :: ' ' :: u)
        (by decide) (by decide) (by decide) (by decide)
    · exact svnMatchAt_none_second_space c3 u
    · exact svnMatchAt_none_head ' ' u
        (by decide) (by decide) (by decide) (by decide)
  · obtain ⟨j, rfl⟩ : ∃ j, k = j + 5 := ⟨k - 5, by omega⟩
    have hj : j < (digitRun u).length := by
      rw [← hd]
      omega
    obtain ⟨ch, tl, hct, hdig⟩ := digitRun_drop_head u j hj
    have hdr : (r0 :: 'e' :: 'v' :: c3 :: ' ' :: u).drop (j + 5) = u.drop j := rfl
    rw [hdr, hct]
    exact svnMatchAt_none_digit tl hdig

/-- No match of `SVN_REVISION_REGEX` starts strictly inside another match:
the scan of `findall` therefore reaches every matching position. -/
theorem svnMatchAt_drop_inner {s : List Char} {len : Nat} {d : List Char}
    (h : svnMatchAt s = some (len, d)) (k : Nat) (hk : 0 < k)
    (hkl : k < len) : svnMatchAt (s.drop k) = none := by
  unfold svnMatchAt at h
  split at h
  · rename_i m h1
    cases h
    exact tryTok_inner_none h1 (by decide) k hk hkl
  split at h
  · rename_i m h2
    cases h
    exact tryRevDot_inner_none h2 k hk hkl
  split at h
  · rename_i m h3
    cases h
    exact tryRevDot_inner_none h3 k hk hkl
  split at h
  · rename_i m h4
    cases h
    exact tryTok_inner_none h4 (by decide) k hk hkl
  split at h
  · rename_i m h5
    cases h
    exact tryTok_inner_none h5 (by decide) k hk hkl
  split at h
  · rename_i m h6
    cases h
    exact tryTok_inner_none h6 (by decide) k hk hkl
  · exact tryTok_inner_none h (by decide) k hk hkl

theorem svnScanGo_nil : ∀ f, svnScanGo f [] = [] := by
  intro f
  cases f <;> rfl

theorem svnScanGo_cons_some (f : Nat) {c : Char} {t : List Char} {len : Nat}
    {d : List Char} (h : svnMatchAt (c :: t) = some (len, d)) :
    svnScanGo (f + 1) (c :: t) = d :: svnScanGo f ((c :: t).drop len) := by
  simp only [svnScanGo, h]

theorem svnScanGo_cons_none (f : Nat) {c : Char} {t : List Char}
    (h : svnMatchAt (c :: t) = none) :
    svnScanGo (f + 1) (c :: t) = svnScanGo f t := by
  simp only [svnScanGo, h]

theorem svnScanGo_congr :
    ∀ f g s, s.length ≤ f → s.length ≤ g → svnScanGo f s = svnScanGo g s := by
  intro f
  induction f with
  | zero =>
    intro g s hf _
    have hs : s = [] := List.length_eq_zero.mp (Nat.le_zero.mp hf)
    subst hs
    rw [svnScanGo_nil, svnScanGo_nil]
  | succ f ih =>
    intro g s hf hg
    cases s with
    | nil => rw [svnScanGo_nil, svnScanGo_nil]
    | cons c t =>
      cases g with
      | zero => simp at hg
      | succ g =>
        cases hm : svnMatchAt (c :: t) with
        | none =>
          rw [svnScanGo_cons_none f hm, svnScanGo_cons_none g hm]
          apply ih
          · simp only [List.length_cons] at hf; omega
          · simp only [List.length_cons] at hg; omega
        | some m =>
          obtain ⟨len, d⟩ := m
          have hpos := svnMatchAt_pos hm
          rw [svnScanGo_cons_some f hm, svnScanGo_cons_some g hm]
          congr 1
          apply ih
          · simp only [List.length_drop, List.length_cons] at hf ⊢; omega
          · simp only [List.length_drop, List.length_cons] at hg ⊢; omega

theorem svnScan_cons_some {c : Char} {t : List Char} {len : Nat}
    {d : List Char} (h : svnMatchAt (c :: t) = some (len, d)) :
    svnScan (c :: t) = d :: svnScan ((c :: t).drop len) := by
  have hpos := svnMatchAt_pos h
  show svnScanGo (c :: t).length (c :: t) =
    d :: svnScanGo ((c :: t).drop len).length ((c :: t).drop len)
  rw [show (c :: t).length = t.length + 1 from rfl, svnScanGo_cons_some t.length h]
  congr 1
  apply svnScanGo_congr
  · simp only [List.length_drop, List.length_cons]; omega
  · exact le_refl _

theorem svnScan_cons_none {c : Char} {t : List Char}
    (h : svnMatchAt (c :: t) = none) : svnScan (c :: t) = svnScan t := by
  show svnScanGo (c :: t).length (c :: t) = svnScanGo t.length t
  rw [show (c :: t).length = t.length + 1 from rfl, svnScanGo_cons_none t.length h]

theorem svnScan_mem_iff : ∀ (n : Nat) (s : List Char), s.length ≤ n →
    ∀ d : List Char,
      (d ∈ svnScan s ↔ ∃ i len, svnMatchAt (s.drop i) = some (len, d)) := by
  intro n
  induction n with
  | zero =>
    intro s hs d
    have h0 : s = [] := List.length_eq_zero.mp (Nat.le_zero.mp hs)
    subst h0
    simp [svnScan, svnScanGo, svnMatchAt_nil]
  | succ n ih =>
    intro s hs d
    cases s with
    | nil => simp [svnScan, svnScanGo, svnMatchAt_nil]
    | cons c t =>
      have ht : t.length ≤ n := by
        simp only [List.length_cons] at hs
        omega
      cases hm : svnMatchAt (c :: t) with
      | some m =>
        obtain ⟨len0, d0⟩ := m
        have hpos := svnMatchAt_pos hm
        have hlen2 : ((c :: t).drop len0).length ≤ n := by
          simp only [List.length_drop, List.length_cons]
          omega
        rw [svnScan_cons_some hm]
        constructor
        · intro hmem
          rcases List.mem_cons.mp hmem with rfl | hmem2
          · exact ⟨0, len0, by simpa using hm⟩
          · obtain ⟨i, len1, hi⟩ := (ih _ hlen2 d).mp hmem2
            refine ⟨len0 + i, len1, ?_⟩
            rw [← List.drop_drop]
            exact hi
        · rintro ⟨i, len1, hi⟩
          rcases Nat.eq_zero_or_pos i with rfl | hipos
          · rw [List.drop_zero, hm] at hi
            simp only [Option.some.injEq, Prod.mk.injEq] at hi
            rw [← hi.2]
            exact List.mem_cons_self _ _
          · rcases Nat.lt_or_ge i len0 with hilt | hige
            · rw [svnMatchAt_drop_inner hm i hipos hilt] at hi
              exact Option.noConfusion hi
            · obtain ⟨j, rfl⟩ : ∃ j, i = len0 + j := ⟨i - len0, by omega⟩
              rw [← List.drop_drop] at hi
              exact List.mem_cons_of_mem _ ((ih _ hlen2 d).mpr ⟨j, len1, hi⟩)
      | none =>
        rw [svnScan_cons_none hm, ih t ht d]
        constructor
        · rintro ⟨i, len1, hi⟩
          exact ⟨i + 1, len1, by simpa using hi⟩
        · rintro ⟨i, len1, hi⟩
          cases i with
          | zero =>
            rw [List.drop_zero, hm] at hi
            exact Option.noConfusion hi
          | succ i =>
            exact ⟨i, len1, by simpa using hi⟩

/-- Membership in the non-overlapping scan coincides with the existence of a
match at some position: a consequence of `svnMatchAt_drop_inner`. -/
theorem svnScan_mem (s d : List Char) :
    d ∈ svnScan s ↔ ∃ i len, svnMatchAt (s.drop i) = some (len, d) :=
  svnScan_mem_iff s.length s (le_refl _) d

/-- All digit groups captured by `SVN_REVISION_REGEX` at any position of the
text: the position-wise, order-free reading used by the amended claim. -/
def svnCaptures (text : List Char) : Finset (List Char) :=
  ((List.range text.length).filterMap
    (fun i => (svnMatchAt (text.drop i)).map Prod.snd)).toFinset

/-- The revision set described by the amended claim: the digit groups
captured by the SVN-revision pattern at any position of the text, together
with the 40-character windows of the non-overlapping hexadecimal scan. -/
def claimRevisionsAmended (text : List Char) : Finset (List Char) :=
  svnCaptures text ∪ (hexScan text).toFinset

/-- C5 (counterexample): on `"Rev# 9 "` followed by forty `a`s and a `b`,
the literal reading of the claim diverges from `extract_revisions` in both
directions: the regex dot in `[Rr]ev. ` lets `Rev# 9` yield `9`, which the
claim's literal tokens miss, and the claim's "every 40-character
hexadecimal substring" includes the window at offset 1 of the 41-character
hexadecimal run, which the code's non-overlapping scan misses. -/
theorem extract_revisions_literal_counterexample :
    ("9".data ∈
        extract_revisions ("Rev# 9 ".data ++ List.replicate 40 'a' ++ ['b']) ∧
      "9".data ∉
        claimRevisionsLiteral ("Rev# 9 ".data ++ List.replicate 40 'a' ++ ['b'])) ∧
    ((List.replicate 39 'a' ++ ['b']) ∈
        claimRevisionsLiteral ("Rev# 9 ".data ++ List.replicate 40 'a' ++ ['b']) ∧
      (List.replicate 39 'a' ++ ['b']) ∉
        extract_revisions ("Rev# 9 ".data ++ List.replicate 40 'a' ++ ['b'])) := by
  decide

/-- C5 (amended): `extract_revisions` returns exactly the digit groups
captured by `SVN_REVISION_REGEX` at any position of the text (the
alternation's tokens with the regex `.` wildcard, each followed by a
nonempty digit group), together with the 40-character windows of the
left-to-right non-overlapping hexadecimal scan. -/
theorem extract_revisions_amended (text : List Char) :
    extract_revisions text = claimRevisionsAmended text := by
  unfold extract_revisions claimRevisionsAmended svnCaptures
  by_cases ht : text = []
  · subst ht
    decide
  · rw [if_neg ht]
    ext d
    simp only [List.toFinset_append, Finset.mem_union, List.mem_toFinset,
      List.mem_filterMap, List.mem_range, Option.map_eq_some']
    constructor
    · rintro (hsvn | hhex)
      · left
        obtain ⟨i, len, hi⟩ := (svnScan_mem text d).mp hsvn
        have hilt : i < text.length := by
          by_contra hge
          rw [List.drop_eq_nil_of_le (by omega), svnMatchAt_nil] at hi
          exact Option.noConfusion hi
        exact ⟨i, hilt, (len, d), hi, rfl⟩
      · right
        exact hhex
    · rintro (⟨i, hilt, ⟨len, d0⟩, hi, hsnd⟩ | hhex)
      · left
        cases hsnd
        exact (svnScan_mem text d0).mpr ⟨i, len, hi⟩
      · right
        exact hhex
